import Mathlib

/-!
# LSVMTools `GetOpt` (lsvmutils/getopt.c)

A shallow embedding of the option scanner `GetOpt` and a verification of its
contract: first-match lookup, optional capture of the following token, and
in-place compaction of the argument vector.

Memory is modelled at the granularity of pointer-sized slots: the argument
vector is a list of slots, each holding a `const char*`.  Reading a slot that
does not exist, or passing a null pointer to `strcmp`, is undefined behaviour
in C and is reported as a `Fault`.
-/

namespace Lsvm

/-- A value of type `const char*`: `none` is the null pointer, `some s` points
to the C string `s`. -/
abbrev Ptr := Option String

/-- Undefined behaviour made explicit, plus exhaustion of the loop budget. -/
inductive Fault where
  | nullDeref
  | outOfBounds
  | fuel
  deriving DecidableEq, Repr

/-- What a call leaves behind: the returned `int`, the caller's `*argc`, the
slots of `argv`, and the caller's `*optarg` slot (`none` when `optarg` itself
is the null pointer, so that there is no slot). -/
structure Outcome where
  ret : Int
  argc : Int
  argv : List Ptr
  optarg : Option Ptr
  deriving DecidableEq, Repr

/-- Byte-wise comparison of two C strings, as `strcmp` performs it: walk both
strings in step and stop at the first difference or at the end of both. -/
def strcmp.chars : List Char → List Char → Int
  | [], [] => 0
  | [], _ :: _ => -1
  | _ :: _, [] => 1
  | a :: as, b :: bs =>
    if a = b then strcmp.chars as bs else if a.toNat < b.toNat then -1 else 1

/-- The libc `strcmp`: zero exactly on equal strings, otherwise negative or
positive by the first differing position.  Both arguments are dereferenced.
A `String` stands for the content of a C string, the bytes before its
terminator. -/
def strcmp : Ptr → Ptr → Except Fault Int
  | some a, some b => .ok (strcmp.chars a.data b.data)
  | _, _ => .error .nullDeref

/-- The libc `memmove` on an array of slots: `memmove(&mem[dst], &mem[src],
n * sizeof(char*))`.  The `n` source slots are read before any is written, so
overlapping ranges are handled. -/
def memmove (mem : List Ptr) (dst src n : Nat) : Except Fault (List Ptr) :=
  if src + n ≤ mem.length ∧ dst + n ≤ mem.length then
    .ok (mem.take dst ++ ((mem.drop src).take n ++ mem.drop (dst + n)))
  else
    .error .outOfBounds

/-- The `for (i = 0; i < *argc; i++)` loop of `GetOpt`, entered at index `i`.
`optarg` is `none` for a null `optarg`, and `some v` for a pointer to a slot
currently holding `v`.  The `int` arithmetic cannot overflow: `i + 1`,
`*argc - i` and `*argc - i - 1` are computed only where `0 ≤ i < *argc`, and
`*argc -= 2` only where `i + 1 < *argc`. -/
def GetOpt.loop (argc : Int) (argv : List Ptr) (optname : Ptr) (optarg : Option Ptr) :
    Nat → Nat → Except Fault Outcome
  | 0, _ => .error .fuel
  | fuel + 1, i =>
    if (i : Int) < argc then
      match argv[i]? with
      | none => .error .outOfBounds
      | some p =>
        match strcmp p optname with
        | .error e => .error e
        | .ok c =>
          if c = 0 then
            match optarg with
            | none =>
              /- Found -/
              match memmove argv i (i + 1) (argc - i).toNat with
              | .error e => .error e
              | .ok moved =>
                .ok { ret := 1, argc := argc - 1, argv := moved, optarg := none }
            | some _ =>
              if (i : Int) + 1 = argc then
                /- Missing option argument -/
                .ok { ret := -1, argc := argc, argv := argv, optarg := optarg }
              else
                match argv[i + 1]? with
                | none => .error .outOfBounds
                | some v =>
                  match memmove argv i (i + 2) (argc - i - 1).toNat with
                  | .error e => .error e
                  | .ok moved =>
                    .ok { ret := 1, argc := argc - 2, argv := moved, optarg := some v }
          else
            GetOpt.loop argc argv optname optarg fuel (i + 1)
    else
      /- Not found -/
      .ok { ret := 0, argc := argc, argv := argv, optarg := optarg }

/-- The function `GetOpt(int* argc, const char* argv[], const char* optname,
const char** optarg)`.  The loop runs at most `*argc` times, so a budget of
`*argc + 1` iterations is never exhausted. -/
def GetOpt (argc : Int) (argv : List Ptr) (optname : Ptr) (optarg : Option Ptr) :
    Except Fault Outcome :=
  GetOpt.loop argc argv optname optarg (argc.toNat + 1) 0

/-- The physical array of an argument vector with tokens `S`: the tokens, then
the slot at index `S.length` (the terminator, null in a C `argv`), then any
spare capacity. -/
def mkArgv (S : List String) (term : Ptr) (spare : List Ptr) : List Ptr :=
  S.map some ++ term :: spare

/-- The logical sequence of an outcome: its first `argc` slots. -/
def Outcome.tokens (o : Outcome) : List Ptr :=
  o.argv.take o.argc.toNat

/-- The option name `n` first occurs in `S` at position `i`: it is the token
at `i`, and no token at a lower position equals it. -/
def FirstAt (S : List String) (n : String) (i : Nat) : Prop :=
  S[i]? = some n ∧ ∀ j, j < i → S[j]? ≠ some n

/-- A caller that invokes `GetOpt` with a null `optarg` `k` times in a row for
the same option name, handing each call the `argc` and `argv` the previous call
left behind.  It reports the return values in call order, then the final
`argc` and `argv`. -/
def repeatFlag (optname : Ptr) : Nat → Int → List Ptr → Except Fault (List Int × Int × List Ptr)
  | 0, argc, argv => .ok ([], argc, argv)
  | k + 1, argc, argv =>
    match GetOpt argc argv optname none with
    | .error e => .error e
    | .ok o =>
      match repeatFlag optname k o.argc o.argv with
      | .error e => .error e
      | .ok (rets, argc', argv') => .ok (o.ret :: rets, argc', argv')

/-- The slot indices of `argv` that a call reads and those it writes, in the
order of the accesses. -/
structure Touched where
  reads : List Nat
  writes : List Nat
  deriving DecidableEq, Repr

/-- The slot indices that the loop of `GetOpt` touches, branch by branch as in
`GetOpt.loop`: every `argv[i]` handed to `strcmp`, the `argv[i+1]` that is
captured, the source slots of each `memmove` (read) and its destination slots
(written).  An access is recorded whether or not the slot exists. -/
def GetOpt.touched (argc : Int) (argv : List Ptr) (optname : Ptr) (optarg : Option Ptr) :
    Nat → Nat → Touched
  | 0, _ => { reads := [], writes := [] }
  | fuel + 1, i =>
    if (i : Int) < argc then
      match argv[i]? with
      | none => { reads := [i], writes := [] }
      | some p =>
        match strcmp p optname with
        | .error _ => { reads := [i], writes := [] }
        | .ok c =>
          if c = 0 then
            match optarg with
            | none =>
              { reads := i :: List.range' (i + 1) (argc - i).toNat,
                writes := List.range' i (argc - i).toNat }
            | some _ =>
              if (i : Int) + 1 = argc then
                { reads := [i], writes := [] }
              else
                { reads := i :: (i + 1) :: List.range' (i + 2) (argc - i - 1).toNat,
                  writes := List.range' i (argc - i - 1).toNat }
          else
            { reads := i :: (GetOpt.touched argc argv optname optarg fuel (i + 1)).reads,
              writes := (GetOpt.touched argc argv optname optarg fuel (i + 1)).writes }
    else
      { reads := [], writes := [] }

/-- The slot indices that a call of `GetOpt` touches. -/
def GetOpt.accesses (argc : Int) (argv : List Ptr) (optname : Ptr) (optarg : Option Ptr) :
    Touched :=
  GetOpt.touched argc argv optname optarg (argc.toNat + 1) 0

/-! ## The primitives -/

theorem strcmp_chars_eq_zero (a b : List Char) : strcmp.chars a b = 0 ↔ a = b := by
  induction a generalizing b with
  | nil => cases b <;> simp [strcmp.chars]
  | cons x xs ih =>
    cases b with
    | nil => simp [strcmp.chars]
    | cons y ys =>
      simp only [strcmp.chars]
      by_cases h : x = y
      · simp [h, ih]
      · simp only [h, if_false]
        split <;> simp [h]

theorem strcmp_self (a : String) : strcmp (some a) (some a) = .ok 0 := by
  simp [strcmp, strcmp_chars_eq_zero]

theorem strcmp_ne {a b : String} (h : a ≠ b) :
    ∃ c, strcmp (some a) (some b) = .ok c ∧ c ≠ 0 := by
  refine ⟨strcmp.chars a.data b.data, rfl, ?_⟩
  intro hc
  exact h (String.ext ((strcmp_chars_eq_zero _ _).1 hc))

theorem memmove_ok (pre gap mid tail : List Ptr) :
    memmove (pre ++ (gap ++ (mid ++ tail))) pre.length (pre.length + gap.length) mid.length
      = .ok (pre ++ (mid ++ (gap ++ (mid ++ tail)).drop mid.length)) := by
  have h1 : pre.length + gap.length + mid.length
      ≤ (pre ++ (gap ++ (mid ++ tail))).length := by
    simp only [List.length_append]; omega
  have h2 : pre.length + mid.length ≤ (pre ++ (gap ++ (mid ++ tail))).length := by
    simp only [List.length_append]; omega
  have h3 : List.drop (pre.length + gap.length) (pre ++ (gap ++ (mid ++ tail)))
      = mid ++ tail := by
    rw [List.drop_append, List.drop_left]
  have h4 : List.drop (pre.length + mid.length) (pre ++ (gap ++ (mid ++ tail)))
      = List.drop mid.length (gap ++ (mid ++ tail)) := by
    rw [List.drop_append]
  unfold memmove
  rw [if_pos ⟨h1, h2⟩, h3, h4, List.take_left, List.take_left]

/-! ## The scan -/

/-- Scanning past `d` slots that hold strings different from the option name
costs `d` iterations and changes nothing. -/
theorem loop_skip (argc : Int) (argv : List Ptr) (n : String) (optarg : Option Ptr) :
    ∀ (d k fuel : Nat), ((k + d : Nat) : Int) ≤ argc →
      (∀ j, k ≤ j → j < k + d → ∃ s, argv[j]? = some (some s) ∧ s ≠ n) →
      GetOpt.loop argc argv (some n) optarg (fuel + d) k
        = GetOpt.loop argc argv (some n) optarg fuel (k + d) := by
  intro d
  induction d with
  | zero => intro k fuel _ _; rfl
  | succ d ih =>
    intro k fuel hle hs
    obtain ⟨s, hk, hne⟩ := hs k (Nat.le_refl k) (by omega)
    obtain ⟨c, hc, hc0⟩ := strcmp_ne hne
    have hlt : (k : Int) < argc := by omega
    have step : GetOpt.loop argc argv (some n) optarg (fuel + d + 1) k
        = GetOpt.loop argc argv (some n) optarg (fuel + d) (k + 1) := by
      simp only [GetOpt.loop, if_pos hlt, hk, hc, if_neg hc0]
    have hrec := ih (k + 1) fuel (by omega) (fun j h1 h2 => hs j (by omega) (by omega))
    rw [show fuel + (d + 1) = fuel + d + 1 by omega, step, hrec]
    congr 1
    omega

/-- Leaving the loop: not found. -/
theorem loop_exit (argc : Int) (argv : List Ptr) (optname : Ptr) (optarg : Option Ptr)
    (fuel k : Nat) (h : argc ≤ (k : Int)) :
    GetOpt.loop argc argv optname optarg (fuel + 1) k
      = .ok { ret := 0, argc := argc, argv := argv, optarg := optarg } := by
  have : ¬ ((k : Int) < argc) := by omega
  simp only [GetOpt.loop, if_neg this]

/-- Matching at index `k` with a null `optarg`. -/
theorem loop_hit_flag (argc : Int) (argv : List Ptr) (n : String) (fuel k : Nat)
    (hlt : (k : Int) < argc) (hk : argv[k]? = some (some n)) (moved : List Ptr)
    (hm : memmove argv k (k + 1) (argc - k).toNat = .ok moved) :
    GetOpt.loop argc argv (some n) none (fuel + 1) k
      = .ok { ret := 1, argc := argc - 1, argv := moved, optarg := none } := by
  simp only [GetOpt.loop, if_pos hlt, hk, strcmp_self, hm, if_true]

/-- Matching at the last index `k` with a non-null `optarg`. -/
theorem loop_hit_missing (argc : Int) (argv : List Ptr) (n : String) (old : Ptr)
    (fuel k : Nat) (hlast : (k : Int) + 1 = argc) (hk : argv[k]? = some (some n)) :
    GetOpt.loop argc argv (some n) (some old) (fuel + 1) k
      = .ok { ret := -1, argc := argc, argv := argv, optarg := some old } := by
  have hlt : (k : Int) < argc := by omega
  simp only [GetOpt.loop, if_pos hlt, hk, strcmp_self, if_pos hlast, if_true]

/-- Matching at an index `k` below the last with a non-null `optarg`. -/
theorem loop_hit_value (argc : Int) (argv : List Ptr) (n : String) (old v : Ptr)
    (fuel k : Nat) (hlt : (k : Int) + 1 < argc) (hk : argv[k]? = some (some n))
    (hv : argv[k + 1]? = some v) (moved : List Ptr)
    (hm : memmove argv k (k + 2) (argc - k - 1).toNat = .ok moved) :
    GetOpt.loop argc argv (some n) (some old) (fuel + 1) k
      = .ok { ret := 1, argc := argc - 2, argv := moved, optarg := some v } := by
  have hlt' : (k : Int) < argc := by omega
  have hne : ¬ ((k : Int) + 1 = argc) := by omega
  simp only [GetOpt.loop, if_pos hlt', hk, strcmp_self, if_neg hne, hv, hm, if_true]

theorem strcmp_fault {p q : Ptr} {e : Fault} (h : strcmp p q = .error e) :
    e = Fault.nullDeref := by
  cases p <;> cases q <;> simp [strcmp] at h <;> exact h.symm

theorem memmove_fault {mem : List Ptr} {dst src n : Nat} {e : Fault}
    (h : memmove mem dst src n = .error e) : e = Fault.outOfBounds := by
  unfold memmove at h
  split at h
  · cases h
  · cases h
    rfl

/-- The loop budget that `GetOpt` provides is never exhausted, whatever the
arguments. -/
theorem loop_budget (argc : Int) (argv : List Ptr) (optname : Ptr) (optarg : Option Ptr) :
    ∀ (fuel i : Nat), (argc - i).toNat < fuel →
      GetOpt.loop argc argv optname optarg fuel i ≠ .error .fuel := by
  intro fuel
  induction fuel with
  | zero => intro i h; omega
  | succ fuel ih =>
    intro i h
    simp only [GetOpt.loop]
    split
    · rename_i hlt
      split
      · simp
      · rename_i p hp
        cases hs : strcmp p optname with
        | error e => simp [strcmp_fault hs]
        | ok c =>
          simp only
          split
          · cases optarg with
            | none =>
              simp only
              cases hm : memmove argv i (i + 1) (argc - i).toNat with
              | error e => simp [memmove_fault hm]
              | ok moved => simp
            | some old =>
              simp only
              split
              · simp
              · split
                · simp
                · cases hm : memmove argv i (i + 2) (argc - i - 1).toNat with
                  | error e => simp [memmove_fault hm]
                  | ok moved => simp
          · exact ih (i + 1) (by omega)
    · simp

/-- `GetOpt` never stops for lack of loop budget: it returns, or the call has
undefined behaviour. -/
theorem GetOpt_budget (argc : Int) (argv : List Ptr) (optname : Ptr) (optarg : Option Ptr) :
    GetOpt argc argv optname optarg ≠ .error .fuel :=
  loop_budget argc argv optname optarg (argc.toNat + 1) 0 (by simp)

/-! ## The argument vector -/

theorem mkArgv_length (S : List String) (term : Ptr) (spare : List Ptr) :
    (mkArgv S term spare).length = S.length + 1 + spare.length := by
  simp [mkArgv]; omega

theorem mkArgv_getElem?_lt (S : List String) (term : Ptr) (spare : List Ptr) (j : Nat)
    (h : j < S.length) : (mkArgv S term spare)[j]? = some (some S[j]) := by
  unfold mkArgv
  rw [List.getElem?_append_left (by simpa using h)]
  simp [h]

theorem mkArgv_getElem?_length (S : List String) (term : Ptr) (spare : List Ptr) :
    (mkArgv S term spare)[S.length]? = some term := by
  unfold mkArgv
  rw [List.getElem?_append_right (by simp)]
  simp

theorem mkArgv_take (S : List String) (term : Ptr) (spare : List Ptr) :
    (mkArgv S term spare).take S.length = S.map some := by
  unfold mkArgv
  exact List.take_left' (by simp)

/-- Slots below the first occurrence hold strings different from the name. -/
theorem mkArgv_skip (pre tl : List String) (n : String) (term : Ptr) (spare : List Ptr)
    (hn : n ∉ pre) (j : Nat) (hj : j < pre.length) :
    ∃ s, (mkArgv (pre ++ tl) term spare)[j]? = some (some s) ∧ s ≠ n := by
  have hj' : j < (pre ++ tl).length := by simp; omega
  refine ⟨(pre ++ tl)[j], mkArgv_getElem?_lt _ _ _ _ hj', ?_⟩
  rw [List.getElem_append_left hj]
  intro h
  exact hn (h ▸ List.getElem_mem hj)

/-- An option name that is no token of the sequence is not found. -/
theorem GetOpt_absent (S : List String) (n : String) (term : Ptr) (spare : List Ptr)
    (optarg : Option Ptr) (hn : n ∉ S) :
    GetOpt S.length (mkArgv S term spare) (some n) optarg
      = .ok { ret := 0, argc := S.length, argv := mkArgv S term spare, optarg := optarg } := by
  unfold GetOpt
  have hs := loop_skip (S.length : Int) (mkArgv S term spare) n optarg S.length 0 1
    (by simp) (fun j _ h2 => by
      have := mkArgv_skip S [] n term spare hn j (by omega)
      simpa using this)
  rw [show ((S.length : Int)).toNat + 1 = 1 + S.length by simp; omega, hs,
    loop_exit _ _ _ _ 0 _ (by simp)]

theorem drop_length_cons_append {α : Type} (v : α) (Q X : List α) :
    List.drop Q.length (v :: (Q ++ X)) = Q.getLastD v :: X := by
  induction Q generalizing v with
  | nil => simp
  | cons q Q ih =>
    simp only [List.length_cons, List.drop_succ_cons, List.cons_append]
    rw [ih q]
    cases Q <;> rfl

theorem getLastD_map_some (v : String) (Q : List String) :
    (Q.map some).getLastD (some v) = some (Q.getLastD v) := by
  induction Q generalizing v with
  | nil => rfl
  | cons q Q ih =>
    simp only [List.map_cons, List.getLastD_cons]
    exact ih q

/-- The `memmove` of the flag-only branch closes the gap left by the name and
carries the slot at index `argc` along. -/
theorem memmove_flag (pre post : List String) (n : String) (term : Ptr) (spare : List Ptr) :
    memmove (mkArgv (pre ++ n :: post) term spare) pre.length (pre.length + 1)
        (post.length + 1)
      = .ok (mkArgv (pre ++ post) term (term :: spare)) := by
  have hA : mkArgv (pre ++ n :: post) term spare
      = pre.map some ++ ([some n] ++ ((post.map some ++ [term]) ++ spare)) := by
    simp [mkArgv]
  have hm := memmove_ok (pre.map some) [some n] (post.map some ++ [term]) spare
  simp only [List.length_map, List.length_append, List.length_singleton] at hm
  rw [hA, hm]
  congr 1
  have hd : List.drop (post.length + 1)
      ([some n] ++ ((post.map some ++ [term]) ++ spare)) = term :: spare := by
    have := List.drop_left (post.map some) (term :: spare)
    simp only [List.length_map] at this
    simp
  rw [hd]
  simp [mkArgv]

/-- The `memmove` of the value branch closes the gap left by the name and its
value and carries the slot at index `argc` along; the two slots it vacates
keep what they held. -/
theorem memmove_value (pre post : List String) (n v : String) (term : Ptr)
    (spare : List Ptr) :
    memmove (mkArgv (pre ++ n :: v :: post) term spare) pre.length (pre.length + 2)
        (post.length + 1)
      = .ok (mkArgv (pre ++ post) term (some (post.getLastD v) :: term :: spare)) := by
  have hA : mkArgv (pre ++ n :: v :: post) term spare
      = pre.map some ++ ([some n, some v] ++ ((post.map some ++ [term]) ++ spare)) := by
    simp [mkArgv]
  have hm := memmove_ok (pre.map some) [some n, some v] (post.map some ++ [term]) spare
  simp only [List.length_map, List.length_append, List.length_singleton, List.length_cons,
    List.length_nil, Nat.zero_add, Nat.reduceAdd] at hm
  rw [hA, hm]
  congr 1
  have hd : List.drop (post.length + 1)
      ([some n, some v] ++ ((post.map some ++ [term]) ++ spare))
      = some (post.getLastD v) :: term :: spare := by
    have := drop_length_cons_append (some v) (post.map some) (term :: spare)
    simp only [List.length_map, getLastD_map_some] at this
    simpa using this
  rw [hd]
  simp [mkArgv]

/-! ## The three ways a match ends -/

theorem mkArgv_at_name (pre post : List String) (n : String) (term : Ptr)
    (spare : List Ptr) :
    (mkArgv (pre ++ n :: post) term spare)[pre.length]? = some (some n) := by
  unfold mkArgv
  rw [List.getElem?_append_left (by simp), List.map_append,
    List.getElem?_append_right (by simp)]
  simp

/-- The scan reaches the first occurrence of the name unchanged. -/
theorem loop_reach (pre post : List String) (n : String) (term : Ptr) (spare : List Ptr)
    (optarg : Option Ptr) (hn : n ∉ pre) :
    GetOpt (pre ++ n :: post).length (mkArgv (pre ++ n :: post) term spare) (some n) optarg
      = GetOpt.loop (pre ++ n :: post).length (mkArgv (pre ++ n :: post) term spare)
          (some n) optarg (post.length + 1 + 1) pre.length := by
  unfold GetOpt
  have hs := loop_skip ((pre ++ n :: post).length : Int)
    (mkArgv (pre ++ n :: post) term spare) n optarg pre.length 0 (post.length + 1 + 1)
    (by simp; omega) (fun j _ h2 => mkArgv_skip pre (n :: post) n term spare hn j (by omega))
  rw [Nat.zero_add] at hs
  rw [← hs]
  congr 1
  simp only [Int.toNat_ofNat, List.length_append, List.length_cons]
  omega

/-- Flag-only mode, name first at `pre.length`: the name is erased. -/
theorem GetOpt_first_flag (pre post : List String) (n : String) (term : Ptr)
    (spare : List Ptr) (hn : n ∉ pre) :
    GetOpt (pre ++ n :: post).length (mkArgv (pre ++ n :: post) term spare) (some n) none
      = .ok { ret := 1, argc := ((pre ++ n :: post).length : Int) - 1,
              argv := mkArgv (pre ++ post) term (term :: spare), optarg := none } := by
  rw [loop_reach pre post n term spare none hn]
  apply loop_hit_flag _ _ _ _ _ (by simp) (mkArgv_at_name pre post n term spare)
  rw [← memmove_flag pre post n term spare]
  congr 1
  simp only [List.length_append, List.length_cons]
  omega

/-- Value mode, name first at the last position: nothing happens. -/
theorem GetOpt_first_missing (pre : List String) (n : String) (term old : Ptr)
    (spare : List Ptr) (hn : n ∉ pre) :
    GetOpt (pre ++ [n]).length (mkArgv (pre ++ [n]) term spare) (some n) (some old)
      = .ok { ret := -1, argc := (pre ++ [n]).length,
              argv := mkArgv (pre ++ [n]) term spare, optarg := some old } := by
  rw [loop_reach pre [] n term spare (some old) hn]
  exact loop_hit_missing _ _ _ _ _ _ (by simp) (mkArgv_at_name pre [] n term spare)

/-- Value mode, name first at `pre.length` and followed by `v`: `v` is
captured and both tokens are erased. -/
theorem GetOpt_first_value (pre post : List String) (n v : String) (term old : Ptr)
    (spare : List Ptr) (hn : n ∉ pre) :
    GetOpt (pre ++ n :: v :: post).length (mkArgv (pre ++ n :: v :: post) term spare)
        (some n) (some old)
      = .ok { ret := 1, argc := ((pre ++ n :: v :: post).length : Int) - 2,
              argv := mkArgv (pre ++ post) term (some (post.getLastD v) :: term :: spare),
              optarg := some (some v) } := by
  rw [loop_reach pre (v :: post) n term spare (some old) hn]
  have hv : (mkArgv (pre ++ n :: v :: post) term spare)[pre.length + 1]? = some (some v) := by
    unfold mkArgv
    rw [List.getElem?_append_left (by simp), List.map_append,
      List.getElem?_append_right (by simp)]
    simp
  apply loop_hit_value _ _ _ _ _ _ _ (by simp)
    (mkArgv_at_name pre (v :: post) n term spare) hv
  rw [← memmove_value pre post n v term spare]
  congr 1
  simp only [List.length_append, List.length_cons]
  omega

/-- A first occurrence splits the sequence around it. -/
theorem FirstAt.split {S : List String} {n : String} {i : Nat} (h : FirstAt S n i) :
    i < S.length ∧ S = S.take i ++ n :: S.drop (i + 1) ∧ n ∉ S.take i ∧
      (S.take i).length = i := by
  obtain ⟨hi, hlow⟩ := h
  have hlt : i < S.length := by
    by_contra hc
    rw [List.getElem?_eq_none (by omega)] at hi
    exact Option.noConfusion hi
  have hget : S[i] = n := by
    rw [List.getElem?_eq_getElem hlt] at hi
    exact Option.some.inj hi
  refine ⟨hlt, ?_, ?_, by simp; omega⟩
  · rw [← hget, ← List.drop_eq_getElem_cons hlt, List.take_append_drop]
  · intro hmem
    obtain ⟨j, hj, hjn⟩ := List.getElem_of_mem hmem
    rw [List.length_take] at hj
    apply hlow j (by omega)
    rw [List.getElem_take] at hjn
    rw [List.getElem?_eq_getElem (by omega), hjn]

theorem firstAt_of_split (pre post : List String) (n : String) (hn : n ∉ pre) :
    FirstAt (pre ++ n :: post) n pre.length := by
  refine ⟨by rw [List.getElem?_append_right (Nat.le_refl _)]; simp, fun j hj hc => ?_⟩
  rw [List.getElem?_append_left hj, List.getElem?_eq_getElem hj] at hc
  exact hn (Option.some.inj hc ▸ List.getElem_mem hj)

/-! ## Positions after compaction -/

theorem mkArgv_getElem?_map (S : List String) (term : Ptr) (spare : List Ptr) (j : Nat)
    (h : j < S.length) : (mkArgv S term spare)[j]? = (S[j]?).map some := by
  rw [mkArgv_getElem?_lt S term spare j h, List.getElem?_eq_getElem h]
  rfl

theorem eraseIdx_split (pre post : List String) (n : String) :
    (pre ++ n :: post).eraseIdx pre.length = pre ++ post := by
  rw [List.eraseIdx_append_of_length_le (Nat.le_refl _)]
  simp

theorem take_drop_split (pre post : List String) (n v : String) :
    (pre ++ n :: v :: post).take pre.length ++ (pre ++ n :: v :: post).drop (pre.length + 2)
      = pre ++ post := by
  rw [List.take_left, List.drop_append]
  rfl

theorem getElem?_split_low (pre tl tl' : List String) (j : Nat) (h : j < pre.length) :
    (pre ++ tl)[j]? = (pre ++ tl')[j]? := by
  rw [List.getElem?_append_left h, List.getElem?_append_left h]

theorem getElem?_split_high (pre gap post : List String) (j : Nat) (h : pre.length ≤ j) :
    (pre ++ post)[j]? = (pre ++ (gap ++ post))[j + gap.length]? := by
  rw [List.getElem?_append_right h, List.getElem?_append_right (by omega),
    List.getElem?_append_right (by omega)]
  congr 1
  omega

theorem tokens_mkArgv (r : Int) (S : List String) (term : Ptr) (spare : List Ptr)
    (optarg : Option Ptr) (argc : Int) (h : argc = S.length) :
    Outcome.tokens { ret := r, argc := argc, argv := mkArgv S term spare, optarg := optarg }
      = S.map some := by
  subst h
  simp only [Outcome.tokens, Int.toNat_ofNat]
  exact mkArgv_take S term spare

/-- The flag-only contract, on a sequence split around the first occurrence. -/
theorem flag_erase_split (pre post : List String) (n : String) (term : Ptr)
    (spare : List Ptr) (hn : n ∉ pre) :
    ∃ o, GetOpt (pre ++ n :: post).length (mkArgv (pre ++ n :: post) term spare) (some n) none
        = .ok o ∧
      o.ret = 1 ∧ o.argc = ((pre ++ n :: post).length : Int) - 1 ∧
      (∀ j, j < pre.length → o.argv[j]? = ((pre ++ n :: post)[j]?).map some) ∧
      (∀ j, pre.length ≤ j → j + 1 < (pre ++ n :: post).length →
        o.argv[j]? = ((pre ++ n :: post)[j + 1]?).map some) ∧
      o.tokens = ((pre ++ n :: post).eraseIdx pre.length).map some := by
  refine ⟨_, GetOpt_first_flag pre post n term spare hn, rfl, rfl, ?_, ?_, ?_⟩
  · intro j hj
    show (mkArgv (pre ++ post) term (term :: spare))[j]? = _
    rw [mkArgv_getElem?_map _ _ _ _ (by simp; omega), getElem?_split_low pre post (n :: post) j hj]
  · intro j hj hL
    show (mkArgv (pre ++ post) term (term :: spare))[j]? = _
    simp only [List.length_append, List.length_cons] at hL
    rw [mkArgv_getElem?_map _ _ _ _ (by simp; omega), getElem?_split_high pre [n] post j hj]
    rfl
  · rw [eraseIdx_split]
    exact tokens_mkArgv _ _ _ _ _ _
      (by simp only [List.length_append, List.length_cons]; push_cast; omega)

/-- The value contract, on a sequence split around the first occurrence. -/
theorem value_erase_split (pre post : List String) (n v : String) (term old : Ptr)
    (spare : List Ptr) (hn : n ∉ pre) :
    ∃ o, GetOpt (pre ++ n :: v :: post).length (mkArgv (pre ++ n :: v :: post) term spare)
        (some n) (some old) = .ok o ∧
      o.ret = 1 ∧ o.optarg = some (some v) ∧
      o.argc = ((pre ++ n :: v :: post).length : Int) - 2 ∧
      (∀ j, j < pre.length → o.argv[j]? = ((pre ++ n :: v :: post)[j]?).map some) ∧
      (∀ j, pre.length ≤ j → j + 2 < (pre ++ n :: v :: post).length →
        o.argv[j]? = ((pre ++ n :: v :: post)[j + 2]?).map some) ∧
      o.tokens = ((pre ++ n :: v :: post).take pre.length
        ++ (pre ++ n :: v :: post).drop (pre.length + 2)).map some := by
  refine ⟨_, GetOpt_first_value pre post n v term old spare hn, rfl, rfl, rfl, ?_, ?_, ?_⟩
  · intro j hj
    show (mkArgv (pre ++ post) term _)[j]? = _
    rw [mkArgv_getElem?_map _ _ _ _ (by simp; omega),
      getElem?_split_low pre post (n :: v :: post) j hj]
  · intro j hj hL
    show (mkArgv (pre ++ post) term _)[j]? = _
    simp only [List.length_append, List.length_cons] at hL
    rw [mkArgv_getElem?_map _ _ _ _ (by simp; omega), getElem?_split_high pre [n, v] post j hj]
    rfl
  · rw [take_drop_split]
    exact tokens_mkArgv _ _ _ _ _ _
      (by simp only [List.length_append, List.length_cons]; push_cast; omega)

/-! ## The contract of `GetOpt` -/

/-- C1 (flag-only match). When the option name `n` first occurs in `S` at
position `i` and `optarg` is null, `GetOpt` returns 1, sets the length to
`L - 1`, leaves the slots below `i` as they were, puts the old token `S[j+1]`
at every position `j` with `i ≤ j < L - 1`, and the resulting logical sequence
is `S` with the element at index `i` erased. -/
theorem GetOpt_flag_only_match (S : List String) (n : String) (i : Nat) (term : Ptr)
    (spare : List Ptr) (h : FirstAt S n i) :
    ∃ o, GetOpt S.length (mkArgv S term spare) (some n) none = .ok o ∧
      o.ret = 1 ∧ o.argc = (S.length : Int) - 1 ∧
      (∀ j, j < i → o.argv[j]? = (S[j]?).map some) ∧
      (∀ j, i ≤ j → j + 1 < S.length → o.argv[j]? = (S[j + 1]?).map some) ∧
      o.tokens = (S.eraseIdx i).map some := by
  obtain ⟨_, hS, hn, hlen⟩ := h.split
  have key := flag_erase_split (S.take i) (S.drop (i + 1)) n term spare hn
  rw [← hS, hlen] at key
  exact key

theorem GetOpt_flag_only_match_witness :
    FirstAt ["prog", "-v", "file"] "-v" 1 ∧
    ∃ o, GetOpt 3 (mkArgv ["prog", "-v", "file"] none []) (some "-v") none = .ok o ∧
      o.ret = 1 ∧ o.argc = 2 ∧
      (∀ j, j < 1 → o.argv[j]? = ((["prog", "-v", "file"] : List String)[j]?).map some) ∧
      (∀ j, 1 ≤ j → j + 1 < 3 →
        o.argv[j]? = ((["prog", "-v", "file"] : List String)[j + 1]?).map some) ∧
      o.tokens = [some "prog", some "file"] :=
  ⟨firstAt_of_split ["prog"] ["file"] "-v" (by decide),
   GetOpt_flag_only_match ["prog", "-v", "file"] "-v" 1 none []
     (firstAt_of_split ["prog"] ["file"] "-v" (by decide))⟩

/-- A first occurrence that is not last splits the sequence around the name
and the token after it. -/
theorem FirstAt.split_value {S : List String} {n : String} {i : Nat} (h : FirstAt S n i)
    (hi : i + 1 < S.length) :
    ∃ v, S[i + 1]? = some v ∧ S = S.take i ++ n :: v :: S.drop (i + 2) := by
  obtain ⟨_, hS, _, _⟩ := h.split
  refine ⟨S[i + 1], List.getElem?_eq_getElem hi, ?_⟩
  rw [← List.drop_eq_getElem_cons hi]
  exact hS

/-- A first occurrence at the last position splits off the last token. -/
theorem FirstAt.split_last {S : List String} {n : String} (h : FirstAt S n (S.length - 1)) :
    S = S.take (S.length - 1) ++ [n] := by
  obtain ⟨hlt, hS, _, _⟩ := h.split
  have hd : S.drop (S.length - 1 + 1) = [] := List.drop_eq_nil_of_le (by omega)
  rw [hd] at hS
  exact hS

/-- C2 (option-with-value match). When `n` first occurs in `S` at a position
`i` with `i + 1 < L` and `optarg` is non-null, `GetOpt` returns 1, stores the
old token `S[i+1]` in the output slot, sets the length to `L - 2`, leaves the
slots below `i` as they were, puts the old token `S[j+2]` at every position
`j` with `i ≤ j < L - 2`, and the resulting logical sequence is `S[0..i)`
followed by `S[i+2..L)`. -/
theorem GetOpt_value_match (S : List String) (n : String) (i : Nat) (term old : Ptr)
    (spare : List Ptr) (h : FirstAt S n i) (hi : i + 1 < S.length) :
    ∃ o v, GetOpt S.length (mkArgv S term spare) (some n) (some old) = .ok o ∧
      S[i + 1]? = some v ∧
      o.ret = 1 ∧ o.optarg = some (some v) ∧ o.argc = (S.length : Int) - 2 ∧
      (∀ j, j < i → o.argv[j]? = (S[j]?).map some) ∧
      (∀ j, i ≤ j → j + 2 < S.length → o.argv[j]? = (S[j + 2]?).map some) ∧
      o.tokens = (S.take i ++ S.drop (i + 2)).map some := by
  obtain ⟨_, _, hn, hlen⟩ := h.split
  obtain ⟨v, hv, hS⟩ := h.split_value hi
  obtain ⟨o, key⟩ := value_erase_split (S.take i) (S.drop (i + 2)) n v term old spare hn
  rw [← hS, hlen] at key
  exact ⟨o, v, key.1, hv, key.2⟩

theorem GetOpt_value_match_witness :
    FirstAt ["prog", "-o", "out.txt", "file"] "-o" 1 ∧ 1 + 1 < 4 ∧
    ∃ o v, GetOpt 4 (mkArgv ["prog", "-o", "out.txt", "file"] none []) (some "-o")
        (some none) = .ok o ∧
      (["prog", "-o", "out.txt", "file"] : List String)[1 + 1]? = some v ∧
      o.ret = 1 ∧ o.optarg = some (some v) ∧ o.argc = 2 ∧
      (∀ j, j < 1 →
        o.argv[j]? = ((["prog", "-o", "out.txt", "file"] : List String)[j]?).map some) ∧
      (∀ j, 1 ≤ j → j + 2 < 4 →
        o.argv[j]? = ((["prog", "-o", "out.txt", "file"] : List String)[j + 2]?).map some) ∧
      o.tokens = [some "prog", some "file"] :=
  ⟨firstAt_of_split ["prog"] ["out.txt", "file"] "-o" (by decide), by decide,
   GetOpt_value_match ["prog", "-o", "out.txt", "file"] "-o" 1 none none []
     (firstAt_of_split ["prog"] ["out.txt", "file"] "-o" (by decide)) (by decide)⟩

/-- C3 (missing argument). When `n` first occurs in `S` at the last valid
position `L - 1` (so that `L ≥ 1`) and `optarg` is non-null, `GetOpt` returns
-1, leaves every slot and the length unchanged, and the output slot keeps the
value it held. -/
theorem GetOpt_missing_argument (S : List String) (n : String) (term old : Ptr)
    (spare : List Ptr) (h : FirstAt S n (S.length - 1)) :
    GetOpt S.length (mkArgv S term spare) (some n) (some old)
      = .ok { ret := -1, argc := S.length, argv := mkArgv S term spare,
              optarg := some old } := by
  obtain ⟨_, _, hn, _⟩ := h.split
  have key := GetOpt_first_missing (S.take (S.length - 1)) n term old spare hn
  rw [← h.split_last] at key
  exact key

theorem GetOpt_missing_argument_witness :
    FirstAt ["prog", "file", "-o"] "-o" 2 ∧
    GetOpt 3 (mkArgv ["prog", "file", "-o"] none []) (some "-o") (some (some "old"))
      = .ok { ret := -1, argc := 3, argv := [some "prog", some "file", some "-o", none],
              optarg := some (some "old") } :=
  ⟨firstAt_of_split ["prog", "file"] [] "-o" (by decide),
   GetOpt_missing_argument ["prog", "file", "-o"] "-o" none (some "old") []
     (firstAt_of_split ["prog", "file"] [] "-o" (by decide))⟩

/-- C4 (not found). When no token of `S` equals `n` (in particular when `S` is
empty), `GetOpt` returns 0 whether `optarg` is null or not, and leaves every
slot, the length and the output slot unchanged. -/
theorem GetOpt_not_found (S : List String) (n : String) (term : Ptr) (spare : List Ptr)
    (optarg : Option Ptr) (hn : ∀ s, s ∈ S → s ≠ n) :
    GetOpt S.length (mkArgv S term spare) (some n) optarg
      = .ok { ret := 0, argc := S.length, argv := mkArgv S term spare, optarg := optarg } :=
  GetOpt_absent S n term spare optarg (fun hmem => hn n hmem rfl)

theorem GetOpt_not_found_witness :
    ((∀ s, s ∈ ([] : List String) → s ≠ "-v") ∧
      GetOpt 0 (mkArgv [] none []) (some "-v") none
        = .ok { ret := 0, argc := 0, argv := [none], optarg := none }) ∧
    ((∀ s, s ∈ ["prog", "file"] → s ≠ "-v") ∧
      GetOpt 2 (mkArgv ["prog", "file"] none []) (some "-v") (some (some "old"))
        = .ok { ret := 0, argc := 2, argv := [some "prog", some "file", none],
                optarg := some (some "old") }) :=
  ⟨⟨by simp, GetOpt_not_found [] "-v" none [] none (by simp)⟩,
   ⟨by decide, GetOpt_not_found ["prog", "file"] "-v" none [] (some (some "old"))
     (by decide)⟩⟩

/-! ## Every call, by cases -/

theorem exists_first_split {S : List String} {n : String} (h : n ∈ S) :
    ∃ pre post, S = pre ++ n :: post ∧ n ∉ pre := by
  induction S with
  | nil => cases h
  | cons a S ih =>
    by_cases ha : a = n
    · exact ⟨[], S, by rw [ha]; rfl, List.not_mem_nil n⟩
    · have hS : n ∈ S := by
        rcases List.mem_cons.1 h with h1 | h1
        · exact absurd h1.symm ha
        · exact h1
      obtain ⟨pre, post, hsplit, hn⟩ := ih hS
      refine ⟨a :: pre, post, by rw [hsplit]; rfl, ?_⟩
      intro hmem
      rcases List.mem_cons.1 hmem with h1 | h1
      · exact ha h1.symm
      · exact hn h1

theorem FirstAt.unique {S : List String} {n : String} {i j : Nat} (hi : FirstAt S n i)
    (hj : FirstAt S n j) : i = j := by
  rcases Nat.lt_trichotomy i j with h | h | h
  · exact absurd hi.1 (hj.2 i h)
  · exact h
  · exact absurd hj.1 (hi.2 j h)

theorem FirstAt.mem {S : List String} {n : String} {i : Nat} (h : FirstAt S n i) : n ∈ S := by
  obtain ⟨_, hS, _, _⟩ := h.split
  rw [hS]
  simp

/-- The complete behaviour of `GetOpt` on an argument vector: not found, found
in flag-only mode, missing argument, or found with a value. -/
theorem GetOpt_cases (S : List String) (n : String) (term : Ptr) (spare : List Ptr)
    (optarg : Option Ptr) :
    (n ∉ S ∧ GetOpt S.length (mkArgv S term spare) (some n) optarg
      = .ok { ret := 0, argc := S.length, argv := mkArgv S term spare, optarg := optarg }) ∨
    (∃ pre post, S = pre ++ n :: post ∧ n ∉ pre ∧ optarg = none ∧
      GetOpt S.length (mkArgv S term spare) (some n) optarg
        = .ok { ret := 1, argc := (S.length : Int) - 1,
                argv := mkArgv (pre ++ post) term (term :: spare), optarg := none }) ∨
    (∃ pre old, S = pre ++ [n] ∧ n ∉ pre ∧ optarg = some old ∧
      GetOpt S.length (mkArgv S term spare) (some n) optarg
        = .ok { ret := -1, argc := S.length, argv := mkArgv S term spare,
                optarg := some old }) ∨
    (∃ pre v post old, S = pre ++ n :: v :: post ∧ n ∉ pre ∧ optarg = some old ∧
      GetOpt S.length (mkArgv S term spare) (some n) optarg
        = .ok { ret := 1, argc := (S.length : Int) - 2,
                argv := mkArgv (pre ++ post) term (some (post.getLastD v) :: term :: spare),
                optarg := some (some v) }) := by
  by_cases hmem : n ∈ S
  · obtain ⟨pre, post, hS, hn⟩ := exists_first_split hmem
    subst hS
    cases optarg with
    | none => exact Or.inr (Or.inl ⟨pre, post, rfl, hn, rfl, GetOpt_first_flag pre post n term spare hn⟩)
    | some old =>
      cases post with
      | nil =>
        exact Or.inr (Or.inr (Or.inl
          ⟨pre, old, rfl, hn, rfl, GetOpt_first_missing pre n term old spare hn⟩))
      | cons v post =>
        exact Or.inr (Or.inr (Or.inr
          ⟨pre, v, post, old, rfl, hn, rfl, GetOpt_first_value pre post n v term old spare hn⟩))
  · exact Or.inl ⟨hmem, GetOpt_absent S n term spare optarg hmem⟩

theorem firstAt_last_iff (pre post : List String) (n : String) (hn : n ∉ pre) :
    FirstAt (pre ++ n :: post) n ((pre ++ n :: post).length - 1) ↔ post = [] := by
  constructor
  · intro h
    have := h.unique (firstAt_of_split pre post n hn)
    simp only [List.length_append, List.length_cons] at this
    exact List.eq_nil_of_length_eq_zero (by omega)
  · intro h
    subst h
    have := firstAt_of_split pre [] n hn
    simpa using this

/-- To occur first at the last position is to occur only there. -/
theorem firstAt_last_iff_only (S : List String) (n : String) :
    FirstAt S n (S.length - 1) ↔ n ∈ S ∧ ∀ j, S[j]? = some n → j + 1 = S.length := by
  constructor
  · intro h
    refine ⟨h.mem, fun j hj => ?_⟩
    have hlt : j < S.length := by
      by_contra hc
      rw [List.getElem?_eq_none (by omega)] at hj
      exact Option.noConfusion hj
    by_contra hne
    exact h.2 j (by omega) hj
  · intro ⟨hmem, honly⟩
    obtain ⟨j, hj, hjn⟩ := List.getElem_of_mem hmem
    have hj' : S[j]? = some n := by rw [List.getElem?_eq_getElem hj, hjn]
    have hlast := honly j hj'
    have hidx : S.length - 1 = j := by omega
    refine ⟨by rw [hidx]; exact hj', fun m hm hmn => ?_⟩
    have := honly m hmn
    omega

/-- C5 (outcome characterisation). For every sequence, option name and mode,
`GetOpt` returns, and its return value is one of 1, 0, -1: it is 0 exactly when
no token of `S` equals `n`; it is -1 exactly when `optarg` is non-null and the
first occurrence of `n` is at position `L - 1`, which is to say that `n` occurs
in `S` only at the final position; and it is 1 in every other case. -/
theorem GetOpt_outcome_characterisation (S : List String) (n : String) (term : Ptr)
    (spare : List Ptr) (optarg : Option Ptr) :
    ∃ o, GetOpt S.length (mkArgv S term spare) (some n) optarg = .ok o ∧
      (o.ret = 1 ∨ o.ret = 0 ∨ o.ret = -1) ∧
      (o.ret = 0 ↔ ∀ s, s ∈ S → s ≠ n) ∧
      (o.ret = -1 ↔ optarg ≠ none ∧ FirstAt S n (S.length - 1)) ∧
      (FirstAt S n (S.length - 1) ↔ n ∈ S ∧ ∀ j, S[j]? = some n → j + 1 = S.length) ∧
      (o.ret = 1 ↔ ¬ (∀ s, s ∈ S → s ≠ n) ∧
        ¬ (optarg ≠ none ∧ FirstAt S n (S.length - 1))) := by
  have habs : (∀ s, s ∈ S → s ≠ n) ↔ n ∉ S :=
    ⟨fun h hmem => h n hmem rfl, fun h s hs hsn => h (hsn ▸ hs)⟩
  rcases GetOpt_cases S n term spare optarg with
    ⟨hn, hcall⟩ | ⟨pre, post, hS, hn, hopt, hcall⟩ | ⟨pre, old, hS, hn, hopt, hcall⟩ |
    ⟨pre, v, post, old, hS, hn, hopt, hcall⟩
  · refine ⟨_, hcall, Or.inr (Or.inl rfl), ?_, ?_, firstAt_last_iff_only S n, ?_⟩
    · exact ⟨fun _ => habs.2 hn, fun _ => rfl⟩
    · exact ⟨fun h => absurd h (show ¬ ((0 : Int) = -1) by decide), fun h => absurd h.2.mem hn⟩
    · exact ⟨fun h => absurd h (show ¬ ((0 : Int) = 1) by decide), fun h => absurd (habs.2 hn) h.1⟩
  · have hmem : n ∈ S := by rw [hS]; simp
    refine ⟨_, hcall, Or.inl rfl, ?_, ?_, firstAt_last_iff_only S n, ?_⟩
    · exact ⟨fun h => absurd h (show ¬ ((1 : Int) = 0) by decide), fun h => absurd hmem (habs.1 h)⟩
    · exact ⟨fun h => absurd h (show ¬ ((1 : Int) = -1) by decide), fun h => absurd hopt h.1⟩
    · exact ⟨fun _ => ⟨fun h => habs.1 h hmem, fun h => h.1 hopt⟩, fun _ => rfl⟩
  · have hmem : n ∈ S := by rw [hS]; simp
    have hlast : FirstAt S n (S.length - 1) := by
      rw [hS]; exact (firstAt_last_iff pre [] n hn).2 rfl
    have hsome : optarg ≠ none := by rw [hopt]; exact Option.some_ne_none old
    refine ⟨_, hcall, Or.inr (Or.inr rfl), ?_, ?_, firstAt_last_iff_only S n, ?_⟩
    · exact ⟨fun h => absurd h (show ¬ ((-1 : Int) = 0) by decide), fun h => absurd hmem (habs.1 h)⟩
    · exact ⟨fun _ => ⟨hsome, hlast⟩, fun _ => rfl⟩
    · exact ⟨fun h => absurd h (show ¬ ((-1 : Int) = 1) by decide), fun h => absurd ⟨hsome, hlast⟩ h.2⟩
  · have hmem : n ∈ S := by rw [hS]; simp
    have hnl : ¬ FirstAt S n (S.length - 1) := by
      rw [hS]
      intro h
      exact List.cons_ne_nil v post ((firstAt_last_iff pre (v :: post) n hn).1 h)
    refine ⟨_, hcall, Or.inl rfl, ?_, ?_, firstAt_last_iff_only S n, ?_⟩
    · exact ⟨fun h => absurd h (show ¬ ((1 : Int) = 0) by decide), fun h => absurd hmem (habs.1 h)⟩
    · exact ⟨fun h => absurd h (show ¬ ((1 : Int) = -1) by decide), fun h => absurd h.2 hnl⟩
    · exact ⟨fun _ => ⟨fun h => habs.1 h hmem, fun h => hnl h.2⟩, fun _ => rfl⟩

/-- C6, as stated, fails: the last token equals the name, but so does an
earlier one, and value mode then matches the earlier one, returns 1, captures
`"a"` and shortens the sequence from 3 tokens to 1. -/
theorem GetOpt_last_token_counterexample :
    (["-x", "a", "-x"] : List String).getLast? = some "-x" ∧
    GetOpt 3 (mkArgv ["-x", "a", "-x"] none []) (some "-x") (some none)
      = .ok { ret := 1, argc := 1, argv := [some "-x", none, some "-x", none],
              optarg := some (some "a") } :=
  ⟨rfl, rfl⟩

/-- C6, amended. When the last token of `S` equals `n` and no earlier token
does, `GetOpt` with a non-null `optarg` returns -1 and leaves every slot, the
length and the output slot unchanged. -/
theorem GetOpt_last_token_only (S : List String) (n : String) (term old : Ptr)
    (spare : List Ptr) (hlast : S.getLast? = some n)
    (hearlier : ∀ j, j + 1 < S.length → S[j]? ≠ some n) :
    GetOpt S.length (mkArgv S term spare) (some n) (some old)
      = .ok { ret := -1, argc := S.length, argv := mkArgv S term spare,
              optarg := some old } := by
  have hfirst : FirstAt S n (S.length - 1) := by
    refine ⟨?_, fun j hj => hearlier j (by omega)⟩
    rw [← List.getLast?_eq_getElem?]
    exact hlast
  obtain ⟨_, _, hn, _⟩ := hfirst.split
  have key := GetOpt_first_missing (S.take (S.length - 1)) n term old spare hn
  rw [← hfirst.split_last] at key
  exact key

theorem GetOpt_last_token_only_witness :
    (["prog", "-x"] : List String).getLast? = some "-x" ∧
    (∀ j, j + 1 < (["prog", "-x"] : List String).length →
      (["prog", "-x"] : List String)[j]? ≠ some "-x") ∧
    GetOpt 2 (mkArgv ["prog", "-x"] none []) (some "-x") (some none)
      = .ok { ret := -1, argc := 2, argv := [some "prog", some "-x", none],
              optarg := some none } :=
  have hearlier : ∀ j, j + 1 < (["prog", "-x"] : List String).length →
      (["prog", "-x"] : List String)[j]? ≠ some "-x" := by
    intro j hj
    have h0 : j = 0 := by
      simp only [List.length_cons, List.length_nil] at hj
      omega
    subst h0
    decide
  ⟨rfl, hearlier, GetOpt_last_token_only ["prog", "-x"] "-x" none none [] rfl hearlier⟩

theorem sublist_split (pre post : List String) (gap : List String) :
    List.Sublist ((pre ++ post).map some) ((pre ++ (gap ++ post)).map some) :=
  (((List.sublist_append_right gap post).append_left pre)).map some

/-- C7 (compaction invariant). For every call, the resulting logical sequence
is a sublist of `S`, so the remaining tokens keep their relative order; the
new length is `L` when the outcome is 0 or -1, `L - 1` when it is 1 in
flag-only mode, `L - 2` when it is 1 in value mode; the new length is never
negative, and it is the number of tokens of the resulting sequence. -/
theorem GetOpt_compaction (S : List String) (n : String) (term : Ptr) (spare : List Ptr)
    (optarg : Option Ptr) :
    ∃ o, GetOpt S.length (mkArgv S term spare) (some n) optarg = .ok o ∧
      List.Sublist o.tokens (S.map some) ∧
      (o.ret = 0 ∨ o.ret = -1 → o.argc = (S.length : Int)) ∧
      (o.ret = 1 → optarg = none → o.argc = (S.length : Int) - 1) ∧
      (o.ret = 1 → optarg ≠ none → o.argc = (S.length : Int) - 2) ∧
      0 ≤ o.argc ∧ (o.tokens.length : Int) = o.argc := by
  rcases GetOpt_cases S n term spare optarg with
    ⟨hn, hcall⟩ | ⟨pre, post, hS, hn, hopt, hcall⟩ | ⟨pre, old, hS, hn, hopt, hcall⟩ |
    ⟨pre, v, post, old, hS, hn, hopt, hcall⟩
  · have ht := tokens_mkArgv 0 S term spare optarg S.length rfl
    refine ⟨_, hcall, ?_, fun _ => rfl, ?_, ?_, ?_, ?_⟩
    · rw [ht]
    · intro h; exact absurd h (show ¬ ((0 : Int) = 1) by decide)
    · intro h; exact absurd h (show ¬ ((0 : Int) = 1) by decide)
    · exact Int.ofNat_nonneg _
    · rw [ht]; simp
  · have hlen : (S.length : Int) - 1 = ((pre ++ post).length : Nat) := by
      rw [hS]; simp only [List.length_append, List.length_cons]; push_cast; omega
    have ht := tokens_mkArgv 1 (pre ++ post) term (term :: spare) none _ hlen
    refine ⟨_, hcall, ?_, ?_, fun _ _ => rfl, fun _ h => absurd hopt h, ?_, ?_⟩
    · rw [ht, hS]; exact sublist_split pre post [n]
    · intro h
      rcases h with h | h
      · exact absurd h (show ¬ ((1 : Int) = 0) by decide)
      · exact absurd h (show ¬ ((1 : Int) = -1) by decide)
    · show (0 : Int) ≤ (S.length : Int) - 1
      rw [hlen]; exact Int.ofNat_nonneg _
    · rw [ht]
      show _ = (S.length : Int) - 1
      rw [hlen]; simp
  · have ht := tokens_mkArgv (-1) S term spare (some old) S.length rfl
    refine ⟨_, hcall, ?_, fun _ => rfl, ?_, ?_, ?_, ?_⟩
    · rw [ht]
    · intro h; exact absurd h (show ¬ ((-1 : Int) = 1) by decide)
    · intro h; exact absurd h (show ¬ ((-1 : Int) = 1) by decide)
    · exact Int.ofNat_nonneg _
    · rw [ht]; simp
  · have hlen : (S.length : Int) - 2 = ((pre ++ post).length : Nat) := by
      rw [hS]; simp only [List.length_append, List.length_cons]; push_cast; omega
    have ht := tokens_mkArgv 1 (pre ++ post) term
      (some (post.getLastD v) :: term :: spare) (some (some v)) _ hlen
    refine ⟨_, hcall, ?_, ?_, ?_, fun _ _ => rfl, ?_, ?_⟩
    · rw [ht, hS]; exact sublist_split pre post [n, v]
    · intro h
      rcases h with h | h
      · exact absurd h (show ¬ ((1 : Int) = 0) by decide)
      · exact absurd h (show ¬ ((1 : Int) = -1) by decide)
    · intro _ h; rw [hopt] at h; exact Option.noConfusion h
    · show (0 : Int) ≤ (S.length : Int) - 2
      rw [hlen]; exact Int.ofNat_nonneg _
    · rw [ht]
      show _ = (S.length : Int) - 2
      rw [hlen]; simp

theorem count_map_some (n : String) (T : List String) :
    (T.map some).count (some n) = T.count n := by
  induction T with
  | nil => rfl
  | cons a T ih =>
    simp only [List.map_cons, List.count_cons, ih]
    by_cases h : a = n
    · simp [h]
    · simp [h]

theorem drop_map_split (pre post : List String) :
    ((pre ++ post).map some).drop pre.length = post.map some := by
  rw [List.map_append]
  exact List.drop_left' (by simp)

/-- C8 (only the first occurrence is affected). A FOUND call, matching at the
first occurrence `i`, leaves one token equal to `n` fewer in flag-only mode;
in value mode it leaves one fewer when the captured value differs from `n` and
two fewer when the captured value is `n` itself; and the tokens after the
removed ones, later occurrences of `n` among them, are all still present in
order.  On `["-x","a","-x","b"]` with `n = "-x"` in value mode the call
returns 1, captures `"a"` and leaves `["-x","b"]` with length 2. -/
theorem GetOpt_first_occurrence_only (S : List String) (n : String) (term : Ptr)
    (spare : List Ptr) (optarg : Option Ptr) :
    (∃ o, GetOpt S.length (mkArgv S term spare) (some n) optarg = .ok o ∧
      (o.ret = 1 → ∃ i, FirstAt S n i ∧ 1 ≤ S.count n ∧
        o.tokens.take i = (S.take i).map some ∧
        (optarg = none →
          o.tokens.count (some n) + 1 = S.count n ∧
          o.tokens.drop i = (S.drop (i + 1)).map some) ∧
        (optarg ≠ none → ∃ v, S[i + 1]? = some v ∧ o.optarg = some (some v) ∧
          (v ≠ n → o.tokens.count (some n) + 1 = S.count n) ∧
          (v = n → o.tokens.count (some n) + 2 = S.count n) ∧
          o.tokens.drop i = (S.drop (i + 2)).map some))) ∧
    (∃ o, GetOpt 4 (mkArgv ["-x", "a", "-x", "b"] none []) (some "-x") (some none) = .ok o ∧
      o.ret = 1 ∧ o.optarg = some (some "a") ∧ o.tokens = [some "-x", some "b"] ∧
      o.argc = 2) := by
  refine ⟨?_, _, rfl, rfl, rfl, rfl, rfl⟩
  rcases GetOpt_cases S n term spare optarg with
    ⟨hn, hcall⟩ | ⟨pre, post, hS, hn, hopt, hcall⟩ | ⟨pre, old, hS, hn, hopt, hcall⟩ |
    ⟨pre, v, post, old, hS, hn, hopt, hcall⟩
  · exact ⟨_, hcall, fun h => absurd h (show ¬ ((0 : Int) = 1) by decide)⟩
  · have hlen : (S.length : Int) - 1 = ((pre ++ post).length : Nat) := by
      rw [hS]; simp only [List.length_append, List.length_cons]; push_cast; omega
    have ht := tokens_mkArgv 1 (pre ++ post) term (term :: spare) none _ hlen
    refine ⟨_, hcall, fun _ => ⟨pre.length, ?_, ?_, ?_, fun _ => ⟨?_, ?_⟩,
      fun h => absurd hopt h⟩⟩
    · rw [hS]; exact firstAt_of_split pre post n hn
    · rw [hS]; simp only [List.count_append, List.count_cons_self]; omega
    · rw [ht, hS, List.take_left, List.map_append]
      exact List.take_left' (by simp)
    · rw [ht, hS, count_map_some]
      simp only [List.count_append, List.count_cons_self]
      omega
    · rw [ht, hS, drop_map_split, List.drop_append]
      rfl
  · exact ⟨_, hcall, fun h => absurd h (show ¬ ((-1 : Int) = 1) by decide)⟩
  · have hlen : (S.length : Int) - 2 = ((pre ++ post).length : Nat) := by
      rw [hS]; simp only [List.length_append, List.length_cons]; push_cast; omega
    have ht := tokens_mkArgv 1 (pre ++ post) term
      (some (post.getLastD v) :: term :: spare) (some (some v)) _ hlen
    refine ⟨_, hcall, fun _ => ⟨pre.length, ?_, ?_, ?_, fun h => ?_,
      fun _ => ⟨v, ?_, rfl, fun hv => ?_, fun hv => ?_, ?_⟩⟩⟩
    · rw [hS]; exact firstAt_of_split pre (v :: post) n hn
    · rw [hS]; simp only [List.count_append, List.count_cons_self]; omega
    · rw [ht, hS, List.take_left, List.map_append]
      exact List.take_left' (by simp)
    · rw [hopt] at h; exact Option.noConfusion h
    · rw [hS, List.getElem?_append_right (by omega)]
      simp
    · rw [ht, hS, count_map_some]
      simp only [List.count_append, List.count_cons_self, List.count_cons_of_ne (Ne.symm hv)]
      omega
    · rw [ht, hS, count_map_some, hv]
      simp only [List.count_append, List.count_cons_self]
      omega
    · rw [ht, hS, drop_map_split, List.drop_append]
      rfl

/-! ## Repeated calls -/

theorem erase_split (pre post : List String) (n : String) (hn : n ∉ pre) :
    (pre ++ n :: post).erase n = pre ++ post := by
  rw [List.erase_append_right _ hn, List.erase_cons_head]

theorem eraseN_length (n : String) :
    ∀ (j : Nat) (S : List String), j ≤ S.count n →
      ((fun T : List String => T.erase n)^[j] S).length + j = S.length := by
  intro j
  induction j with
  | zero => intro S _; rfl
  | succ j ih =>
    intro S hj
    have hmem : n ∈ S := List.count_pos_iff.1 (by omega)
    have hlen := List.length_erase_of_mem hmem
    have hpos : 0 < S.length := List.length_pos_of_mem hmem
    have hcount : j ≤ (S.erase n).count n := by
      rw [List.count_erase_self]; omega
    have := ih (S.erase n) hcount
    rw [Function.iterate_succ_apply]
    omega

theorem filter_ne_length (n : String) (S : List String) :
    (S.filter (fun s => s ≠ n)).length + S.count n = S.length := by
  induction S with
  | nil => rfl
  | cons a S ih =>
    by_cases h : a = n
    · subst h
      simp only [ne_eq, not_true_eq_false, decide_False, Bool.false_eq_true,
        not_false_eq_true, List.filter_cons_of_neg, List.count_cons_self, List.length_cons]
      simp only [ne_eq] at ih
      omega
    · have hd : decide (a ≠ n) = true := by simpa using h
      rw [List.filter_cons, if_pos hd, List.count_cons_of_ne (Ne.symm h)]
      simp only [List.length_cons]
      omega

theorem filter_ne_split (pre post : List String) (n : String) :
    (pre ++ n :: post).filter (fun s => s ≠ n) = (pre ++ post).filter (fun s => s ≠ n) := by
  simp [List.filter_append]

theorem replicate_shift {α : Type} (k : Nat) (a : α) (l : List α) :
    List.replicate k a ++ a :: l = List.replicate (k + 1) a ++ l := by
  rw [List.replicate_succ', List.append_assoc]
  rfl

/-- One more call of the caller's loop, when the name is present. -/
theorem repeatFlag_step (pre post : List String) (n : String) (term : Ptr)
    (spare : List Ptr) (hn : n ∉ pre) (k : Nat) :
    repeatFlag (some n) (k + 1) (pre ++ n :: post).length
        (mkArgv (pre ++ n :: post) term spare)
      = match repeatFlag (some n) k (pre ++ post).length
            (mkArgv (pre ++ post) term (term :: spare)) with
        | .error e => .error e
        | .ok (rets, argc', argv') => .ok (1 :: rets, argc', argv') := by
  have hlen : ((pre ++ n :: post).length : Int) - 1 = ((pre ++ post).length : Nat) := by
    simp only [List.length_append, List.length_cons]; push_cast; omega
  rw [repeatFlag, GetOpt_first_flag pre post n term spare hn]
  simp only [hlen]

/-- The first `j` calls, while occurrences remain: each returns 1 and erases
the first remaining occurrence. -/
theorem repeatFlag_erases (n : String) (term : Ptr) :
    ∀ (j : Nat) (S : List String) (spare : List Ptr), j ≤ S.count n →
      repeatFlag (some n) j S.length (mkArgv S term spare)
        = .ok (List.replicate j 1, (S.length : Int) - j,
            mkArgv ((fun T : List String => T.erase n)^[j] S) term
              (List.replicate j term ++ spare)) := by
  intro j
  induction j with
  | zero =>
    intro S spare _
    simp [repeatFlag]
  | succ j ih =>
    intro S spare hj
    have hmem : n ∈ S := List.count_pos_iff.1 (by omega)
    obtain ⟨pre, post, hS, hn⟩ := exists_first_split hmem
    subst hS
    have hcount : j ≤ (pre ++ post).count n := by
      simp only [List.count_append, List.count_cons_self] at hj ⊢
      omega
    rw [repeatFlag_step pre post n term spare hn j, ih (pre ++ post) (term :: spare) hcount,
      Function.iterate_succ_apply, erase_split pre post n hn]
    simp only [List.replicate_succ, List.length_append, List.length_cons]
    congr 3
    · push_cast; omega
    · rw [replicate_shift]
      rfl

/-- As many calls as there are occurrences, and one more: the last returns 0,
and what is left is the sequence without the tokens equal to the name. -/
theorem repeatFlag_filters (n : String) (term : Ptr) :
    ∀ (k : Nat) (S : List String) (spare : List Ptr), S.count n = k →
      repeatFlag (some n) (k + 1) S.length (mkArgv S term spare)
        = .ok (List.replicate k 1 ++ [0], (S.length : Int) - k,
            mkArgv (S.filter (fun s => s ≠ n)) term (List.replicate k term ++ spare)) := by
  intro k
  induction k with
  | zero =>
    intro S spare hk
    have hn : n ∉ S := List.count_eq_zero.1 hk
    have hf : S.filter (fun s => s ≠ n) = S :=
      List.filter_eq_self.2 (fun a ha => by
        have : a ≠ n := fun h => hn (h ▸ ha)
        simpa using this)
    rw [repeatFlag, GetOpt_absent S n term spare none hn, hf]
    simp [repeatFlag]
  | succ k ih =>
    intro S spare hk
    have hmem : n ∈ S := List.count_pos_iff.1 (by omega)
    obtain ⟨pre, post, hS, hn⟩ := exists_first_split hmem
    subst hS
    have hcount : (pre ++ post).count n = k := by
      simp only [List.count_append, List.count_cons_self] at hk ⊢
      omega
    rw [repeatFlag_step pre post n term spare hn (k + 1),
      ih (pre ++ post) (term :: spare) hcount, filter_ne_split pre post n]
    simp only [List.replicate_succ, List.length_append, List.length_cons, List.cons_append]
    congr 3
    · push_cast; omega
    · rw [replicate_shift]
      rfl

/-- C9 (repeated calls remove all occurrences). Let `n` occur `k` times in
`S`.  For every `j ≤ k`, the first `j` flag-only calls for `n` each return 1,
leave the length at `L - j` and leave `S` with its first `j` occurrences of `n`
erased; and `k + 1` calls return 1 `k` times and then 0, after which the
length is `L - k` and the logical sequence is `S` with every token equal to
`n` filtered out, in the original order. -/
theorem GetOpt_repeated_calls (S : List String) (n : String) (term : Ptr)
    (spare : List Ptr) :
    (∀ j, j ≤ S.count n → ∃ argv',
      repeatFlag (some n) j S.length (mkArgv S term spare)
        = .ok (List.replicate j 1, (S.length : Int) - j, argv') ∧
      argv'.take (S.length - j) = ((fun T : List String => T.erase n)^[j] S).map some) ∧
    (∃ argv',
      repeatFlag (some n) (S.count n + 1) S.length (mkArgv S term spare)
        = .ok (List.replicate (S.count n) 1 ++ [0], (S.length : Int) - S.count n, argv') ∧
      argv'.take (S.length - S.count n) = (S.filter (fun s => s ≠ n)).map some) := by
  constructor
  · intro j hj
    refine ⟨_, repeatFlag_erases n term j S spare hj, ?_⟩
    have hlen := eraseN_length n j S hj
    rw [show S.length - j = ((fun T : List String => T.erase n)^[j] S).length by omega]
    exact mkArgv_take _ _ _
  · refine ⟨_, repeatFlag_filters n term (S.count n) S spare rfl, ?_⟩
    have hlen := filter_ne_length n S
    rw [show S.length - S.count n = (S.filter (fun s => s ≠ n)).length by omega]
    exact mkArgv_take _ _ _

theorem GetOpt_repeated_calls_witness :
    ∃ argv', repeatFlag (some "-v") 3 3 (mkArgv ["-v", "a", "-v"] none [])
        = .ok ([1, 1, 0], 1, argv') ∧
      argv'.take 1 = [some "a"] :=
  (GetOpt_repeated_calls ["-v", "a", "-v"] "-v" none []).2

/-! ## The tokens below the match -/

theorem low_slots (pre tl tl' : List String) (term : Ptr) (spare : List Ptr) (j : Nat)
    (h : j < pre.length) :
    (mkArgv (pre ++ tl) term spare)[j]? = ((pre ++ tl')[j]?).map some := by
  rw [mkArgv_getElem?_map _ _ _ _ (by simp only [List.length_append]; omega),
    getElem?_split_low pre tl tl' j h]

/-- Two sequences with the same tokens from the first occurrence on, split
around that occurrence. -/
theorem earlier_tokens_split (pre pre' post : List String) (n : String) (term : Ptr)
    (spare : List Ptr) (optarg : Option Ptr) (hlen : pre'.length = pre.length)
    (hn : n ∉ pre) (hn' : n ∉ pre') :
    ∃ o o', GetOpt (pre ++ n :: post).length (mkArgv (pre ++ n :: post) term spare)
        (some n) optarg = .ok o ∧
      GetOpt (pre' ++ n :: post).length (mkArgv (pre' ++ n :: post) term spare)
        (some n) optarg = .ok o' ∧
      o.ret = o'.ret ∧ o.optarg = o'.optarg ∧ o.argc = o'.argc ∧
      o.tokens.drop pre.length = o'.tokens.drop pre.length ∧
      (∀ j, j < pre.length → o.argv[j]? = ((pre ++ n :: post)[j]?).map some) ∧
      (∀ j, j < pre.length → o'.argv[j]? = ((pre' ++ n :: post)[j]?).map some) := by
  have hL : ∀ tl : List String, ((pre' ++ tl).length : Int) = ((pre ++ tl).length : Int) := by
    intro tl; simp only [List.length_append, hlen]
  cases optarg with
  | none =>
    refine ⟨_, _, GetOpt_first_flag pre post n term spare hn,
      GetOpt_first_flag pre' post n term spare hn', rfl, rfl, ?_, ?_, ?_, ?_⟩
    · show _ - 1 = _ - 1
      rw [hL]
    · have hlen1 : ((pre ++ n :: post).length : Int) - 1 = ((pre ++ post).length : Nat) := by
        simp only [List.length_append, List.length_cons]; push_cast; omega
      have hlen2 : ((pre' ++ n :: post).length : Int) - 1 = ((pre' ++ post).length : Nat) := by
        simp only [List.length_append, List.length_cons]; push_cast; omega
      rw [tokens_mkArgv _ _ _ _ _ _ hlen1, tokens_mkArgv _ _ _ _ _ _ hlen2,
        drop_map_split, ← hlen, drop_map_split]
    · intro j hj
      exact low_slots pre post (n :: post) term _ j hj
    · intro j hj
      exact low_slots pre' post (n :: post) term _ j (by omega)
  | some old =>
    cases post with
    | nil =>
      refine ⟨_, _, GetOpt_first_missing pre n term old spare hn,
        GetOpt_first_missing pre' n term old spare hn', rfl, rfl, ?_, ?_, ?_, ?_⟩
      · exact (hL [n]).symm
      · rw [tokens_mkArgv _ _ _ _ _ _ rfl, tokens_mkArgv _ _ _ _ _ _ rfl,
          drop_map_split, ← hlen, drop_map_split]
      · intro j hj
        exact low_slots pre [n] [n] term _ j hj
      · intro j hj
        exact low_slots pre' [n] [n] term _ j (by omega)
    | cons v post =>
      refine ⟨_, _, GetOpt_first_value pre post n v term old spare hn,
        GetOpt_first_value pre' post n v term old spare hn', rfl, rfl, ?_, ?_, ?_, ?_⟩
      · show _ - 2 = _ - 2
        rw [hL]
      · have hlen1 : ((pre ++ n :: v :: post).length : Int) - 2
            = ((pre ++ post).length : Nat) := by
          simp only [List.length_append, List.length_cons]; push_cast; omega
        have hlen2 : ((pre' ++ n :: v :: post).length : Int) - 2
            = ((pre' ++ post).length : Nat) := by
          simp only [List.length_append, List.length_cons]; push_cast; omega
        rw [tokens_mkArgv _ _ _ _ _ _ hlen1, tokens_mkArgv _ _ _ _ _ _ hlen2,
          drop_map_split, ← hlen, drop_map_split]
      · intro j hj
        exact low_slots pre post (n :: v :: post) term _ j hj
      · intro j hj
        exact low_slots pre' post (n :: v :: post) term _ j (by omega)

/-- C10, as stated, fails: the scan does inspect the tokens below the match.
The sequences `["a","-x"]` and `["-x","-x"]` differ only at position 0, below
the position 1 at which the first one matches `"-x"`; yet in value mode the
first call returns -1 and changes nothing, while the second returns 1,
captures `"-x"` and leaves the length at 0. -/
theorem GetOpt_earlier_tokens_counterexample :
    FirstAt ["a", "-x"] "-x" 1 ∧
    (["a", "-x"] : List String).drop 1 = (["-x", "-x"] : List String).drop 1 ∧
    GetOpt 2 (mkArgv ["a", "-x"] none []) (some "-x") (some none)
      = .ok { ret := -1, argc := 2, argv := [some "a", some "-x", none],
              optarg := some none } ∧
    GetOpt 2 (mkArgv ["-x", "-x"] none []) (some "-x") (some none)
      = .ok { ret := 1, argc := 0, argv := [none, some "-x", none],
              optarg := some (some "-x") } :=
  ⟨firstAt_of_split ["a"] [] "-x" (by decide), rfl, rfl, rfl⟩

/-- C10, amended. The tokens below the matched position `i` matter only in
that none of them equals `n`: they keep their positions, and two calls on
sequences that both have their first occurrence of `n` at `i` and agree from
position `i` on give the same return value, the same captured value, the same
length and the same resulting tokens from position `i` on. -/
theorem GetOpt_earlier_tokens (S T : List String) (n : String) (i : Nat) (term : Ptr)
    (spare : List Ptr) (optarg : Option Ptr) (hS : FirstAt S n i) (hT : FirstAt T n i)
    (hsuffix : S.drop i = T.drop i) :
    ∃ o o', GetOpt S.length (mkArgv S term spare) (some n) optarg = .ok o ∧
      GetOpt T.length (mkArgv T term spare) (some n) optarg = .ok o' ∧
      o.ret = o'.ret ∧ o.optarg = o'.optarg ∧ o.argc = o'.argc ∧
      o.tokens.drop i = o'.tokens.drop i ∧
      (∀ j, j < i → o.argv[j]? = (S[j]?).map some) ∧
      (∀ j, j < i → o'.argv[j]? = (T[j]?).map some) := by
  obtain ⟨_, hSs, hnS, hlenS⟩ := hS.split
  obtain ⟨_, hTs, hnT, hlenT⟩ := hT.split
  have hdrop : T.drop (i + 1) = S.drop (i + 1) := by
    have := congrArg (List.drop 1) hsuffix
    simp only [List.drop_drop] at this
    exact this.symm
  rw [hdrop] at hTs
  have key := earlier_tokens_split (S.take i) (T.take i) (S.drop (i + 1)) n term spare optarg
    (by rw [hlenS, hlenT]) hnS hnT
  rw [← hSs, ← hTs, hlenS] at key
  exact key

theorem GetOpt_earlier_tokens_witness :
    FirstAt ["a", "-x", "v"] "-x" 1 ∧ FirstAt ["b", "-x", "v"] "-x" 1 ∧
    (["a", "-x", "v"] : List String).drop 1 = (["b", "-x", "v"] : List String).drop 1 ∧
    ∃ o o', GetOpt 3 (mkArgv ["a", "-x", "v"] none []) (some "-x") (some none) = .ok o ∧
      GetOpt 3 (mkArgv ["b", "-x", "v"] none []) (some "-x") (some none) = .ok o' ∧
      o.ret = o'.ret ∧ o.optarg = o'.optarg ∧ o.argc = o'.argc ∧
      o.tokens.drop 1 = o'.tokens.drop 1 ∧
      (∀ j, j < 1 → o.argv[j]? = ((["a", "-x", "v"] : List String)[j]?).map some) ∧
      (∀ j, j < 1 → o'.argv[j]? = ((["b", "-x", "v"] : List String)[j]?).map some) :=
  ⟨firstAt_of_split ["a"] ["v"] "-x" (by decide),
   firstAt_of_split ["b"] ["v"] "-x" (by decide), rfl,
   GetOpt_earlier_tokens ["a", "-x", "v"] ["b", "-x", "v"] "-x" 1 none [] (some none)
     (firstAt_of_split ["a"] ["v"] "-x" (by decide))
     (firstAt_of_split ["b"] ["v"] "-x" (by decide)) rfl⟩

/-! ## The empty option name, and a two-call scenario -/

/-- C11, as stated, fails: the empty string is an option name like any other,
and a token may be the empty string.  On `["prog",""]` the empty name first
occurs at the last position, and the call with a non-null `optarg` returns -1
and changes nothing. -/
theorem GetOpt_empty_name_counterexample :
    GetOpt 2 (mkArgv ["prog", ""] none []) (some "") (some none)
      = .ok { ret := -1, argc := 2, argv := [some "prog", some "", none],
              optarg := some none } :=
  rfl

/-- C11, amended. With the empty string as the option name, `GetOpt` returns 1
or 0, never -1, provided that `optarg` is null or the first empty token of `S`
is not its last token (in particular when `S` has no empty token). -/
theorem GetOpt_empty_name (S : List String) (term : Ptr) (spare : List Ptr)
    (optarg : Option Ptr) (h : optarg = none ∨ ¬ FirstAt S "" (S.length - 1)) :
    ∃ o, GetOpt S.length (mkArgv S term spare) (some "") optarg = .ok o ∧
      (o.ret = 1 ∨ o.ret = 0) := by
  rcases GetOpt_cases S "" term spare optarg with
    ⟨_, hcall⟩ | ⟨pre, post, _, _, _, hcall⟩ | ⟨pre, old, hS, hn, hopt, hcall⟩ |
    ⟨pre, v, post, old, _, _, _, hcall⟩
  · exact ⟨_, hcall, Or.inr rfl⟩
  · exact ⟨_, hcall, Or.inl rfl⟩
  · exfalso
    rcases h with h | h
    · rw [hopt] at h; exact Option.noConfusion h
    · apply h
      rw [hS]
      exact (firstAt_last_iff pre [] "" hn).2 rfl
  · exact ⟨_, hcall, Or.inl rfl⟩

theorem GetOpt_empty_name_witness :
    ((some none : Option Ptr) = none ∨ ¬ FirstAt ["prog", "", "v"] "" (3 - 1)) ∧
    ∃ o, GetOpt 3 (mkArgv ["prog", "", "v"] none []) (some "") (some none) = .ok o ∧
      (o.ret = 1 ∨ o.ret = 0) :=
  have h : (some none : Option Ptr) = none ∨ ¬ FirstAt ["prog", "", "v"] "" (3 - 1) :=
    Or.inr (fun hf => absurd hf.1 (by decide))
  ⟨h, GetOpt_empty_name ["prog", "", "v"] none [] (some none) h⟩

/-- C12 (two-call scenario). From `["prog","-v","-o","out.txt","file"]` with
length 5, the flag-only call for `"-v"` returns 1 and leaves
`["prog","-o","out.txt","file"]` with length 4; the value call for `"-o"` on
what that call left returns 1, captures `"out.txt"` and leaves
`["prog","file"]` with length 2. -/
theorem GetOpt_two_call_scenario :
    ∃ o, GetOpt 5 (mkArgv ["prog", "-v", "-o", "out.txt", "file"] none []) (some "-v") none
        = .ok o ∧
      o.ret = 1 ∧ o.argc = 4 ∧
      o.tokens = [some "prog", some "-o", some "out.txt", some "file"] ∧
      ∃ o', GetOpt o.argc o.argv (some "-o") (some none) = .ok o' ∧
        o'.ret = 1 ∧ o'.optarg = some (some "out.txt") ∧ o'.argc = 2 ∧
        o'.tokens = [some "prog", some "file"] :=
  ⟨_, rfl, rfl, rfl, rfl, _, rfl, rfl, rfl, rfl, rfl⟩

/-! ## Flag and value mode at the end of the sequence -/

theorem take_split_last (pre : List String) (n : String) :
    (pre ++ [n]).take ((pre ++ [n]).length - 1) = pre := by
  rw [List.length_append, List.length_singleton, Nat.add_sub_cancel, List.take_left]

/-- C13 (flag/value asymmetry at the end of the sequence). With a null
`optarg`, `GetOpt` returns 1 or 0, never -1.  When the first occurrence of `n`
is at the final position `L - 1`, the flag-only call returns 1, sets the
length to `L - 1` and leaves `S[0..L-1)` as it was, whereas the call with a
non-null `optarg` on the same input returns -1. -/
theorem GetOpt_end_asymmetry (S : List String) (n : String) (term old : Ptr)
    (spare : List Ptr) :
    ∃ o, GetOpt S.length (mkArgv S term spare) (some n) none = .ok o ∧
      (o.ret = 1 ∨ o.ret = 0) ∧ o.ret ≠ -1 ∧
      (FirstAt S n (S.length - 1) →
        o.ret = 1 ∧ o.argc = (S.length : Int) - 1 ∧
        o.tokens = (S.take (S.length - 1)).map some ∧
        ∃ o', GetOpt S.length (mkArgv S term spare) (some n) (some old) = .ok o' ∧
          o'.ret = -1) := by
  rcases GetOpt_cases S n term spare none with
    ⟨hn, hcall⟩ | ⟨pre, post, hS, hn, _, hcall⟩ | ⟨_, old', _, _, hopt, _⟩ |
    ⟨_, _, _, old', _, _, hopt, _⟩
  · exact ⟨_, hcall, Or.inr rfl, show ¬ ((0 : Int) = -1) by decide,
      fun h => absurd h.mem hn⟩
  · refine ⟨_, hcall, Or.inl rfl, show ¬ ((1 : Int) = -1) by decide, fun h => ?_⟩
    have hpost : post = [] := by
      rw [hS] at h
      exact (firstAt_last_iff pre post n hn).1 h
    subst hpost
    have hlen : (S.length : Int) - 1 = ((pre ++ ([] : List String)).length : Nat) := by
      rw [hS]; simp only [List.length_append, List.length_cons, List.length_nil]
      push_cast; omega
    refine ⟨rfl, rfl, ?_, ?_⟩
    · rw [tokens_mkArgv _ _ _ _ _ _ hlen, hS, take_split_last, List.append_nil]
    · have hmiss := GetOpt_first_missing pre n term old spare hn
      rw [← hS] at hmiss
      exact ⟨_, hmiss, rfl⟩
  · exact Option.noConfusion hopt
  · exact Option.noConfusion hopt

theorem GetOpt_end_asymmetry_witness :
    FirstAt ["prog", "-v"] "-v" (2 - 1) ∧
    ∃ o, GetOpt 2 (mkArgv ["prog", "-v"] none []) (some "-v") none = .ok o ∧
      o.ret = 1 ∧ o.argc = 1 ∧ o.tokens = [some "prog"] ∧
      ∃ o', GetOpt 2 (mkArgv ["prog", "-v"] none []) (some "-v") (some none) = .ok o' ∧
        o'.ret = -1 :=
  have hf : FirstAt ["prog", "-v"] "-v" (2 - 1) := firstAt_of_split ["prog"] [] "-v" (by decide)
  match GetOpt_end_asymmetry ["prog", "-v"] "-v" none none [] with
  | ⟨o, hcall, _, _, hlast⟩ => ⟨hf, o, hcall, hlast hf⟩

/-! ## The slot at the logical length -/

theorem slot_at_argc (T : List String) (term : Ptr) (spare : List Ptr) (argc : Int)
    (h : argc = (T.length : Nat)) : (mkArgv T term spare)[argc.toNat]? = some term := by
  subst h
  rw [Int.toNat_ofNat]
  exact mkArgv_getElem?_length T term spare

/-- The slot at the new logical length after any call holds what the slot at
the old logical length held. -/
theorem terminator_moved (S : List String) (n : String) (term : Ptr) (spare : List Ptr)
    (optarg : Option Ptr) :
    ∃ o, GetOpt S.length (mkArgv S term spare) (some n) optarg = .ok o ∧
      o.argv[o.argc.toNat]? = some term ∧
      (o.ret = 1 → optarg = none → o.argv[S.length - 1]? = some term) ∧
      (o.ret = 1 → optarg ≠ none → o.argv[S.length - 2]? = some term) := by
  rcases GetOpt_cases S n term spare optarg with
    ⟨hn, hcall⟩ | ⟨pre, post, hS, hn, hopt, hcall⟩ | ⟨pre, old, hS, hn, hopt, hcall⟩ |
    ⟨pre, v, post, old, hS, hn, hopt, hcall⟩
  · refine ⟨_, hcall, slot_at_argc S term spare _ rfl, ?_, ?_⟩
    · intro h; exact absurd h (show ¬ ((0 : Int) = 1) by decide)
    · intro h; exact absurd h (show ¬ ((0 : Int) = 1) by decide)
  · have hlen : (S.length : Int) - 1 = ((pre ++ post).length : Nat) := by
      rw [hS]; simp only [List.length_append, List.length_cons]; push_cast; omega
    have hnat : S.length - 1 = (pre ++ post).length := by
      rw [hS]; simp only [List.length_append, List.length_cons]; omega
    refine ⟨_, hcall, slot_at_argc (pre ++ post) term _ _ hlen, fun _ _ => ?_,
      fun _ h => absurd hopt h⟩
    show (mkArgv (pre ++ post) term (term :: spare))[S.length - 1]? = some term
    rw [hnat]
    exact mkArgv_getElem?_length _ _ _
  · refine ⟨_, hcall, slot_at_argc S term spare _ rfl, ?_, ?_⟩
    · intro h; exact absurd h (show ¬ ((-1 : Int) = 1) by decide)
    · intro h; exact absurd h (show ¬ ((-1 : Int) = 1) by decide)
  · have hlen : (S.length : Int) - 2 = ((pre ++ post).length : Nat) := by
      rw [hS]; simp only [List.length_append, List.length_cons]; push_cast; omega
    have hnat : S.length - 2 = (pre ++ post).length := by
      rw [hS]; simp only [List.length_append, List.length_cons]; omega
    refine ⟨_, hcall, slot_at_argc (pre ++ post) term _ _ hlen, fun _ h => ?_, fun _ _ => ?_⟩
    · rw [hopt] at h; exact Option.noConfusion h
    · show (mkArgv (pre ++ post) term _)[S.length - 2]? = some term
      rw [hnat]
      exact mkArgv_getElem?_length _ _ _

/-- C14 (terminator preservation). In a physical array of at least `L + 1`
slots whose slot `L` holds `term`, every call leaves `term` in the slot at the
new logical length: slot `L - 1` after a flag-only match, slot `L - 2` after a
match with a value, slot `L` otherwise.  Hence an `argv` that is
null-terminated at its logical length before the call is null-terminated at
its logical length after it, whatever the outcome. -/
theorem GetOpt_terminator (S : List String) (n : String) (term : Ptr) (spare : List Ptr)
    (optarg : Option Ptr) :
    (mkArgv S term spare)[S.length]? = some term ∧
    (∃ o, GetOpt S.length (mkArgv S term spare) (some n) optarg = .ok o ∧
      o.argv[o.argc.toNat]? = some term ∧
      (o.ret = 1 → optarg = none → o.argv[S.length - 1]? = some term) ∧
      (o.ret = 1 → optarg ≠ none → o.argv[S.length - 2]? = some term)) ∧
    (mkArgv S none spare)[S.length]? = some none ∧
    (∃ o, GetOpt S.length (mkArgv S none spare) (some n) optarg = .ok o ∧
      o.argv[o.argc.toNat]? = some none) := by
  refine ⟨mkArgv_getElem?_length S term spare, terminator_moved S n term spare optarg,
    mkArgv_getElem?_length S none spare, ?_⟩
  obtain ⟨o, hcall, hterm, _⟩ := terminator_moved S n none spare optarg
  exact ⟨o, hcall, hterm⟩

/-! ## Index safety -/

/-- The scan reaches index `k` unchanged when the slots below `k` hold strings
different from the name, in any array. -/
theorem GetOpt_reach (argc : Int) (argv : List Ptr) (n : String) (optarg : Option Ptr)
    (k : Nat) (hk : (k : Int) ≤ argc)
    (hs : ∀ j, j < k → ∃ s, argv[j]? = some (some s) ∧ s ≠ n) :
    GetOpt argc argv (some n) optarg
      = GetOpt.loop argc argv (some n) optarg (argc.toNat - k + 1) k := by
  unfold GetOpt
  have h := loop_skip argc argv n optarg k 0 (argc.toNat - k + 1)
    (by simpa using hk) (fun j _ h2 => hs j (by omega))
  rw [Nat.zero_add] at h
  rw [← h]
  congr 1
  omega

/-- A fault of the flag-only `memmove` is the fault of the call. -/
theorem loop_hit_flag_fault (argc : Int) (argv : List Ptr) (n : String) (fuel k : Nat)
    (hlt : (k : Int) < argc) (hk : argv[k]? = some (some n)) (e : Fault)
    (hm : memmove argv k (k + 1) (argc - k).toNat = .error e) :
    GetOpt.loop argc argv (some n) none (fuel + 1) k = .error e := by
  simp only [GetOpt.loop, if_pos hlt, hk, strcmp_self, hm, if_true]

/-- A fault of the value `memmove` is the fault of the call. -/
theorem loop_hit_value_fault (argc : Int) (argv : List Ptr) (n : String) (old v : Ptr)
    (fuel k : Nat) (hlt : (k : Int) + 1 < argc) (hk : argv[k]? = some (some n))
    (hv : argv[k + 1]? = some v) (e : Fault)
    (hm : memmove argv k (k + 2) (argc - k - 1).toNat = .error e) :
    GetOpt.loop argc argv (some n) (some old) (fuel + 1) k = .error e := by
  have hlt' : (k : Int) < argc := by omega
  have hne : ¬ ((k : Int) + 1 = argc) := by omega
  simp only [GetOpt.loop, if_pos hlt', hk, strcmp_self, if_neg hne, hv, hm, if_true]

/-- A `memmove` whose source range ends beyond the array faults. -/
theorem memmove_source_fault (mem : List Ptr) (dst src n : Nat) (h : mem.length < src + n) :
    memmove mem dst src n = .error .outOfBounds := by
  unfold memmove
  rw [if_neg (fun hc => by omega)]

theorem map_some_skip (pre tl : List String) (n : String) (hn : n ∉ pre) (j : Nat)
    (hj : j < pre.length) :
    ∃ s, ((pre ++ tl).map some)[j]? = some (some s) ∧ s ≠ n := by
  refine ⟨pre[j], ?_, fun h => hn (h ▸ List.getElem_mem hj)⟩
  rw [List.map_append, List.getElem?_append_left (by simpa using hj),
    List.getElem?_map, List.getElem?_eq_getElem hj]
  rfl

theorem map_some_at (pre post : List String) (m : String) :
    ((pre ++ m :: post).map some)[pre.length]? = some (some m) := by
  rw [List.map_append, List.getElem?_append_right (by simp)]
  simp

/-- Without the slot at index `L`, a flag-only match reads out of bounds. -/
theorem tight_flag (pre post : List String) (n : String) (hn : n ∉ pre) :
    GetOpt (pre ++ n :: post).length ((pre ++ n :: post).map some) (some n) none
      = .error .outOfBounds := by
  rw [GetOpt_reach _ _ n none pre.length (by simp; omega)
    (fun j hj => map_some_skip pre (n :: post) n hn j hj)]
  apply loop_hit_flag_fault _ _ _ _ _ (by simp) (map_some_at pre post n)
  apply memmove_source_fault
  simp only [List.length_map, List.length_append, List.length_cons]
  omega

/-- Without the slot at index `L`, a match with a value reads out of bounds. -/
theorem tight_value (pre post : List String) (n v : String) (old : Ptr) (hn : n ∉ pre) :
    GetOpt (pre ++ n :: v :: post).length ((pre ++ n :: v :: post).map some) (some n)
        (some old) = .error .outOfBounds := by
  have hv : ((pre ++ n :: v :: post).map some)[pre.length + 1]? = some (some v) := by
    rw [List.map_append, List.getElem?_append_right (by simp)]
    simp
  rw [GetOpt_reach _ _ n (some old) pre.length (by simp; omega)
    (fun j hj => map_some_skip pre (n :: v :: post) n hn j hj)]
  apply loop_hit_value_fault _ _ _ _ _ _ _ (by simp) (map_some_at pre (v :: post) n) hv
  apply memmove_source_fault
  simp only [List.length_map, List.length_append, List.length_cons]
  omega

/-- Without the slot at index `L`, a missing argument is still reported. -/
theorem tight_missing (pre : List String) (n : String) (old : Ptr) (hn : n ∉ pre) :
    GetOpt (pre ++ [n]).length ((pre ++ [n]).map some) (some n) (some old)
      = .ok { ret := -1, argc := (pre ++ [n]).length, argv := (pre ++ [n]).map some,
              optarg := some old } := by
  rw [GetOpt_reach _ _ n (some old) pre.length (by simp)
    (fun j hj => map_some_skip pre [n] n hn j hj)]
  exact loop_hit_missing _ _ _ _ _ _ (by simp) (map_some_at pre [] n)

/-- Without the slot at index `L`, an absent name is still not found. -/
theorem tight_absent (S : List String) (n : String) (optarg : Option Ptr) (hn : n ∉ S) :
    GetOpt S.length (S.map some) (some n) optarg
      = .ok { ret := 0, argc := S.length, argv := S.map some, optarg := optarg } := by
  rw [GetOpt_reach _ _ n optarg S.length (Int.le_refl _)
    (fun j hj => by simpa using map_some_skip S [] n hn j hj)]
  exact loop_exit _ _ _ _ _ _ (Int.le_refl _)

/-- Scanning past `d` slots that hold strings different from the name reads
exactly those `d` slots. -/
theorem touched_skip (argc : Int) (argv : List Ptr) (n : String) (optarg : Option Ptr) :
    ∀ (d k fuel : Nat), ((k + d : Nat) : Int) ≤ argc →
      (∀ j, k ≤ j → j < k + d → ∃ s, argv[j]? = some (some s) ∧ s ≠ n) →
      GetOpt.touched argc argv (some n) optarg (fuel + d) k
        = { reads := List.range' k d
              ++ (GetOpt.touched argc argv (some n) optarg fuel (k + d)).reads,
            writes := (GetOpt.touched argc argv (some n) optarg fuel (k + d)).writes } := by
  intro d
  induction d with
  | zero => intro k fuel _ _; rfl
  | succ d ih =>
    intro k fuel hle hs
    obtain ⟨s, hk, hne⟩ := hs k (Nat.le_refl k) (by omega)
    obtain ⟨c, hc, hc0⟩ := strcmp_ne hne
    have hlt : (k : Int) < argc := by omega
    have hrec := ih (k + 1) fuel (by omega) (fun j h1 h2 => hs j (by omega) (by omega))
    have hidx : k + 1 + d = k + (d + 1) := by omega
    rw [show fuel + (d + 1) = fuel + d + 1 by omega]
    simp only [GetOpt.touched, if_pos hlt, hk, hc, if_neg hc0, hrec, hidx, List.range'_succ,
      List.cons_append]

/-- The accesses of a call, from the first occurrence of the name on. -/
theorem accesses_reach (pre post : List String) (n : String) (term : Ptr) (spare : List Ptr)
    (optarg : Option Ptr) (hn : n ∉ pre) :
    GetOpt.accesses (pre ++ n :: post).length (mkArgv (pre ++ n :: post) term spare)
        (some n) optarg
      = { reads := List.range' 0 pre.length
            ++ (GetOpt.touched (pre ++ n :: post).length
                (mkArgv (pre ++ n :: post) term spare) (some n) optarg
                (post.length + 1 + 1) pre.length).reads,
          writes := (GetOpt.touched (pre ++ n :: post).length
                (mkArgv (pre ++ n :: post) term spare) (some n) optarg
                (post.length + 1 + 1) pre.length).writes } := by
  unfold GetOpt.accesses
  have hs := touched_skip ((pre ++ n :: post).length : Int)
    (mkArgv (pre ++ n :: post) term spare) n optarg pre.length 0 (post.length + 1 + 1)
    (by simp; omega) (fun j _ h2 => mkArgv_skip pre (n :: post) n term spare hn j (by omega))
  rw [Nat.zero_add] at hs
  rw [← hs]
  congr 1
  simp only [Int.toNat_ofNat, List.length_append, List.length_cons]
  omega

theorem range_join (i m : Nat) :
    List.range' 0 i ++ i :: List.range' (i + 1) m = List.range' 0 (i + m + 1) := by
  have h := List.range'_append_1 0 i (m + 1)
  rw [Nat.zero_add, List.range'_succ] at h
  rw [h]
  congr 1
  omega

theorem accesses_absent (S : List String) (n : String) (term : Ptr) (spare : List Ptr)
    (optarg : Option Ptr) (hn : n ∉ S) :
    GetOpt.accesses S.length (mkArgv S term spare) (some n) optarg
      = { reads := List.range' 0 S.length, writes := [] } := by
  unfold GetOpt.accesses
  have hs := touched_skip (S.length : Int) (mkArgv S term spare) n optarg S.length 0 1
    (by simp) (fun j _ h2 => by
      have := mkArgv_skip S [] n term spare hn j (by omega)
      simpa using this)
  have hexit : GetOpt.touched (S.length : Int) (mkArgv S term spare) (some n) optarg 1
      (0 + S.length) = { reads := [], writes := [] } := by
    have : ¬ (((0 + S.length : Nat) : Int) < (S.length : Int)) := by omega
    simp only [GetOpt.touched, if_neg this]
  rw [show ((S.length : Int)).toNat + 1 = 1 + S.length by simp; omega, hs, hexit,
    List.append_nil]

theorem accesses_flag (pre post : List String) (n : String) (term : Ptr) (spare : List Ptr)
    (hn : n ∉ pre) :
    GetOpt.accesses (pre ++ n :: post).length (mkArgv (pre ++ n :: post) term spare)
        (some n) none
      = { reads := List.range' 0 (pre.length + (post.length + 1) + 1),
          writes := List.range' pre.length (post.length + 1) } := by
  have hlt : (pre.length : Int) < ((pre ++ n :: post).length : Nat) := by
    simp only [List.length_append, List.length_cons]; push_cast; omega
  have hcount : (((pre ++ n :: post).length : Nat) - (pre.length : Int)).toNat
      = post.length + 1 := by
    simp only [List.length_append, List.length_cons]; push_cast; omega
  rw [accesses_reach pre post n term spare none hn]
  simp only [GetOpt.touched, if_pos hlt, mkArgv_at_name, strcmp_self, if_true, hcount,
    range_join]

theorem accesses_missing (pre : List String) (n : String) (term old : Ptr)
    (spare : List Ptr) (hn : n ∉ pre) :
    GetOpt.accesses (pre ++ [n]).length (mkArgv (pre ++ [n]) term spare) (some n) (some old)
      = { reads := List.range' 0 (pre.length + 1), writes := [] } := by
  have hlt : (pre.length : Int) < ((pre ++ [n]).length : Nat) := by simp
  have hlast : (pre.length : Int) + 1 = ((pre ++ [n]).length : Nat) := by simp
  have hjoin := range_join pre.length 0
  rw [List.range'_zero] at hjoin
  rw [accesses_reach pre [] n term spare (some old) hn]
  simp only [GetOpt.touched, if_pos hlt, mkArgv_at_name, strcmp_self, if_true, if_pos hlast,
    hjoin, Nat.add_zero]

theorem accesses_value (pre post : List String) (n v : String) (term old : Ptr)
    (spare : List Ptr) (hn : n ∉ pre) :
    GetOpt.accesses (pre ++ n :: v :: post).length
        (mkArgv (pre ++ n :: v :: post) term spare) (some n) (some old)
      = { reads := List.range' 0 (pre.length + (post.length + 2) + 1),
          writes := List.range' pre.length (post.length + 1) } := by
  have hlt : (pre.length : Int) < ((pre ++ n :: v :: post).length : Nat) := by
    simp only [List.length_append, List.length_cons]; push_cast; omega
  have hne : ¬ ((pre.length : Int) + 1 = ((pre ++ n :: v :: post).length : Nat)) := by
    simp only [List.length_append, List.length_cons]; push_cast; omega
  have hjoin : List.range' 0 pre.length
      ++ pre.length :: (pre.length + 1) :: List.range' (pre.length + 2) (post.length + 1)
      = List.range' 0 (pre.length + (post.length + 2) + 1) := by
    rw [← List.range'_succ (pre.length + 1) (post.length + 1) 1, range_join]
  have hcount : (((pre ++ n :: v :: post).length : Nat) - (pre.length : Int) - 1).toNat
      = post.length + 1 := by
    simp only [List.length_append, List.length_cons]; push_cast; omega
  rw [accesses_reach pre (v :: post) n term spare (some old) hn]
  simp only [GetOpt.touched, if_pos hlt, mkArgv_at_name, strcmp_self, if_true, if_neg hne,
    hcount, hjoin]

/-- The access record agrees with the call: when every slot that is read
exists, the call does not fault out of bounds, whatever the arguments. -/
theorem loop_reads_cover (argc : Int) (argv : List Ptr) (optname : Ptr)
    (optarg : Option Ptr) :
    ∀ (fuel i : Nat),
      (∀ j, j ∈ (GetOpt.touched argc argv optname optarg fuel i).reads → j < argv.length) →
      GetOpt.loop argc argv optname optarg fuel i ≠ .error .outOfBounds := by
  intro fuel
  induction fuel with
  | zero => intro i _; simp [GetOpt.loop]
  | succ fuel ih =>
    intro i h
    simp only [GetOpt.touched] at h
    simp only [GetOpt.loop]
    by_cases hlt : (i : Int) < argc
    · simp only [if_pos hlt] at h ⊢
      cases hp : argv[i]? with
      | none =>
        simp only [hp] at h
        have := h i (List.mem_singleton.2 rfl)
        rw [List.getElem?_eq_none_iff] at hp
        omega
      | some p =>
        simp only [hp] at h ⊢
        cases hs : strcmp p optname with
        | error e => simp [strcmp_fault hs]
        | ok c =>
          simp only [hs] at h ⊢
          by_cases hc : c = 0
          · simp only [if_pos hc] at h ⊢
            have hi : i < argv.length := by
              by_contra hcon
              rw [List.getElem?_eq_none (by omega)] at hp
              exact Option.noConfusion hp
            cases optarg with
            | none =>
              simp only at h ⊢
              have hm : memmove argv i (i + 1) (argc - i).toNat
                  = .ok (argv.take i ++ ((argv.drop (i + 1)).take (argc - i).toNat
                      ++ argv.drop (i + (argc - i).toNat))) := by
                have hsrc : i + 1 + (argc - i).toNat ≤ argv.length := by
                  by_cases h0 : (argc - i).toNat = 0
                  · omega
                  · have := h (i + (argc - i).toNat) (List.mem_cons_of_mem _
                      (List.mem_range'_1.2 ⟨by omega, by omega⟩))
                    omega
                unfold memmove
                rw [if_pos ⟨hsrc, by omega⟩]
              rw [hm]
              simp
            | some old =>
              simp only at h ⊢
              by_cases hlast : (i : Int) + 1 = argc
              · simp [if_pos hlast]
              · simp only [if_neg hlast] at h ⊢
                have hi1 : i + 1 < argv.length :=
                  h (i + 1) (List.mem_cons_of_mem _ (List.mem_cons_self _ _))
                rw [List.getElem?_eq_getElem hi1]
                simp only
                have hm : memmove argv i (i + 2) (argc - i - 1).toNat
                    = .ok (argv.take i ++ ((argv.drop (i + 2)).take (argc - i - 1).toNat
                        ++ argv.drop (i + (argc - i - 1).toNat))) := by
                  have hsrc : i + 2 + (argc - i - 1).toNat ≤ argv.length := by
                    by_cases h0 : (argc - i - 1).toNat = 0
                    · omega
                    · have := h (i + 1 + (argc - i - 1).toNat) (List.mem_cons_of_mem _
                        (List.mem_cons_of_mem _ (List.mem_range'_1.2 ⟨by omega, by omega⟩)))
                      omega
                  unfold memmove
                  rw [if_pos ⟨hsrc, by omega⟩]
                rw [hm]
                simp
          · simp only [if_neg hc] at h ⊢
            exact ih (i + 1) (fun j hj => h j (List.mem_cons_of_mem _ hj))
    · simp [if_neg hlt]

/-- The access record agrees with the call, for `GetOpt` itself. -/
theorem GetOpt_reads_cover (argc : Int) (argv : List Ptr) (optname : Ptr)
    (optarg : Option Ptr)
    (h : ∀ j, j ∈ (GetOpt.accesses argc argv optname optarg).reads → j < argv.length) :
    GetOpt argc argv optname optarg ≠ .error .outOfBounds :=
  loop_reads_cover argc argv optname optarg (argc.toNat + 1) 0 h

/-- C15 (index safety). In a physical array of at least `L + 1` slots every
call returns, and every slot index it reads (in the scan, in the capture of
`argv[i+1]`, in the source range of either `memmove`) lies in `0..L`, every
index it writes (the destination range, from `i`) lies below `L`.  On every
call that returns 1 the slots read are exactly `0..L`, so the highest index
read is `L`: an array of exactly `L + 1` slots suffices, and in one of exactly
`L` slots the call reads out of bounds. -/
theorem GetOpt_index_safety (S : List String) (n : String) (term : Ptr) (spare : List Ptr)
    (optarg : Option Ptr) :
    ∃ o, GetOpt S.length (mkArgv S term spare) (some n) optarg = .ok o ∧
      (∀ j, j ∈ (GetOpt.accesses S.length (mkArgv S term spare) (some n) optarg).reads →
        j ≤ S.length) ∧
      (∀ j, j ∈ (GetOpt.accesses S.length (mkArgv S term spare) (some n) optarg).writes →
        j < S.length) ∧
      (o.ret = 1 →
        (GetOpt.accesses S.length (mkArgv S term spare) (some n) optarg).reads
          = List.range' 0 (S.length + 1)) ∧
      (∀ i, FirstAt S n i → o.ret = 1 → optarg = none →
        (GetOpt.accesses S.length (mkArgv S term spare) (some n) optarg).writes
          = List.range' i (S.length - i)) ∧
      (∀ i, FirstAt S n i → o.ret = 1 → optarg ≠ none →
        (GetOpt.accesses S.length (mkArgv S term spare) (some n) optarg).writes
          = List.range' i (S.length - i - 1)) ∧
      (∃ o', GetOpt S.length (mkArgv S term []) (some n) optarg = .ok o' ∧ o'.ret = o.ret) ∧
      (o.ret = 1 → GetOpt S.length (S.map some) (some n) optarg = .error .outOfBounds) := by
  by_cases hmem : n ∈ S
  · obtain ⟨pre, post, hS, hn⟩ := exists_first_split hmem
    subst hS
    have hfirst := firstAt_of_split pre post n hn
    cases optarg with
    | none =>
      have hL : (pre ++ n :: post).length = pre.length + (post.length + 1) := by simp
      have hacc := accesses_flag pre post n term spare hn
      refine ⟨_, GetOpt_first_flag pre post n term spare hn, ?_, ?_, ?_, ?_, ?_,
        ⟨_, GetOpt_first_flag pre post n term [] hn, rfl⟩, fun _ => tight_flag pre post n hn⟩
      · intro j hj
        rw [hacc] at hj
        have := List.mem_range'_1.1 hj
        rw [hL]
        omega
      · intro j hj
        rw [hacc] at hj
        have := List.mem_range'_1.1 hj
        rw [hL]
        omega
      · intro _
        rw [hacc, hL]
      · intro i hi _ _
        have hidx := hi.unique hfirst
        subst hidx
        rw [hacc, hL]
        show List.range' _ _ = List.range' _ _
        congr 1
        omega
      · intro i _ _ h
        exact absurd rfl h
    | some old =>
      cases post with
      | nil =>
        have hacc := accesses_missing pre n term old spare hn
        refine ⟨_, GetOpt_first_missing pre n term old spare hn, ?_, ?_, ?_, ?_, ?_,
          ⟨_, GetOpt_first_missing pre n term old [] hn, rfl⟩, ?_⟩
        · intro j hj
          rw [hacc] at hj
          have := List.mem_range'_1.1 hj
          simp only [List.length_append, List.length_singleton]
          omega
        · intro j hj
          rw [hacc] at hj
          cases hj
        · intro h; exact absurd h (show ¬ ((-1 : Int) = 1) by decide)
        · intro i _ h; exact absurd h (show ¬ ((-1 : Int) = 1) by decide)
        · intro i _ h; exact absurd h (show ¬ ((-1 : Int) = 1) by decide)
        · intro h; exact absurd h (show ¬ ((-1 : Int) = 1) by decide)
      | cons v post =>
        have hL : (pre ++ n :: v :: post).length = pre.length + (post.length + 2) := by simp
        have hacc := accesses_value pre post n v term old spare hn
        refine ⟨_, GetOpt_first_value pre post n v term old spare hn, ?_, ?_, ?_, ?_, ?_,
          ⟨_, GetOpt_first_value pre post n v term old [] hn, rfl⟩,
          fun _ => tight_value pre post n v old hn⟩
        · intro j hj
          rw [hacc] at hj
          have := List.mem_range'_1.1 hj
          rw [hL]
          omega
        · intro j hj
          rw [hacc] at hj
          have := List.mem_range'_1.1 hj
          rw [hL]
          omega
        · intro _
          rw [hacc, hL]
        · intro i _ _ h
          exact Option.noConfusion h
        · intro i hi _ _
          have hidx := hi.unique hfirst
          subst hidx
          rw [hacc, hL]
          show List.range' _ _ = List.range' _ _
          congr 1
          omega
  · have hacc := accesses_absent S n term spare optarg hmem
    refine ⟨_, GetOpt_absent S n term spare optarg hmem, ?_, ?_, ?_, ?_, ?_,
      ⟨_, GetOpt_absent S n term [] optarg hmem, rfl⟩, ?_⟩
    · intro j hj
      rw [hacc] at hj
      have := List.mem_range'_1.1 hj
      omega
    · intro j hj
      rw [hacc] at hj
      cases hj
    · intro h; exact absurd h (show ¬ ((0 : Int) = 1) by decide)
    · intro i _ h; exact absurd h (show ¬ ((0 : Int) = 1) by decide)
    · intro i _ h; exact absurd h (show ¬ ((0 : Int) = 1) by decide)
    · intro h; exact absurd h (show ¬ ((0 : Int) = 1) by decide)

/-! ## Two flags, in either order -/

/-- A flag-only call erases the first occurrence of the name, if there is one. -/
theorem flag_call_erase (T : List String) (n : String) (term : Ptr) (spare : List Ptr) :
    GetOpt T.length (mkArgv T term spare) (some n) none
      = .ok { ret := if n ∈ T then 1 else 0, argc := ((T.erase n).length : Nat),
              argv := mkArgv (T.erase n) term (if n ∈ T then term :: spare else spare),
              optarg := none } := by
  by_cases hmem : n ∈ T
  · obtain ⟨pre, post, hT, hn⟩ := exists_first_split hmem
    subst hT
    rw [GetOpt_first_flag pre post n term spare hn, erase_split pre post n hn,
      if_pos hmem, if_pos hmem]
    congr 2
    simp only [List.length_append, List.length_cons]
    push_cast
    omega
  · rw [GetOpt_absent T n term spare none hmem, List.erase_of_not_mem hmem,
      if_neg hmem, if_neg hmem]

/-- C16 (order independence of flag extraction). For two distinct option
names `a` and `b`, the flag-only call for `a` followed by the flag-only call
for `b` on what it left, and the two calls in the other order, end with the
same logical sequence, the same length, the same outcome for `a` and the same
outcome for `b`; the physical arrays they leave are equal as well. -/
theorem GetOpt_flag_order (S : List String) (a b : String) (term : Ptr) (spare : List Ptr)
    (hab : a ≠ b) :
    ∃ oa ob ob' oa',
      GetOpt S.length (mkArgv S term spare) (some a) none = .ok oa ∧
      GetOpt oa.argc oa.argv (some b) none = .ok ob ∧
      GetOpt S.length (mkArgv S term spare) (some b) none = .ok ob' ∧
      GetOpt ob'.argc ob'.argv (some a) none = .ok oa' ∧
      ob.tokens = oa'.tokens ∧ ob.argc = oa'.argc ∧
      oa.ret = oa'.ret ∧ ob.ret = ob'.ret ∧ ob.argv = oa'.argv := by
  have hmemb : b ∈ S.erase a ↔ b ∈ S := List.mem_erase_of_ne (Ne.symm hab)
  have hmema : a ∈ S.erase b ↔ a ∈ S := List.mem_erase_of_ne hab
  have hcomm : (S.erase a).erase b = (S.erase b).erase a := List.erase_comm a b S
  refine ⟨_, _, _, _, flag_call_erase S a term spare, flag_call_erase (S.erase a) b term _,
    flag_call_erase S b term spare, flag_call_erase (S.erase b) a term _, ?_, ?_, ?_, ?_, ?_⟩
  · rw [tokens_mkArgv _ _ _ _ _ _ rfl, tokens_mkArgv _ _ _ _ _ _ rfl, hcomm]
  · show (((S.erase a).erase b).length : Int) = (((S.erase b).erase a).length : Int)
    rw [hcomm]
  · show (if a ∈ S then (1 : Int) else 0) = (if a ∈ S.erase b then (1 : Int) else 0)
    simp only [hmema]
  · show (if b ∈ S.erase a then (1 : Int) else 0) = (if b ∈ S then (1 : Int) else 0)
    simp only [hmemb]
  · show mkArgv ((S.erase a).erase b) term _ = mkArgv ((S.erase b).erase a) term _
    rw [hcomm]
    simp only [hmema, hmemb]
    by_cases ha : a ∈ S <;> by_cases hb : b ∈ S <;> simp only [ha, hb, if_true, if_false]

theorem GetOpt_flag_order_witness :
    "-v" ≠ "-q" ∧
    ∃ oa ob ob' oa',
      GetOpt 4 (mkArgv ["prog", "-q", "-v", "file"] none []) (some "-v") none = .ok oa ∧
      GetOpt oa.argc oa.argv (some "-q") none = .ok ob ∧
      GetOpt 4 (mkArgv ["prog", "-q", "-v", "file"] none []) (some "-q") none = .ok ob' ∧
      GetOpt ob'.argc ob'.argv (some "-v") none = .ok oa' ∧
      ob.tokens = oa'.tokens ∧ ob.argc = oa'.argc ∧
      oa.ret = oa'.ret ∧ ob.ret = ob'.ret ∧ ob.argv = oa'.argv :=
  ⟨by decide, GetOpt_flag_order ["prog", "-q", "-v", "file"] "-v" "-q" none [] (by decide)⟩

/-! ## The output slot -/

/-- C17 (output-slot frame). The output slot is assigned only when `optarg` is
non-null and the call returns 1: when the call returns 0 or -1 the slot keeps
the value it had, and with a null `optarg` there is no slot.  When `optarg` is
non-null and the call returns 1, the slot holds the token that immediately
followed the first occurrence of `n` in the original sequence; a slot that
held null before such a call visibly changes. -/
theorem GetOpt_optarg_frame (S : List String) (n : String) (term : Ptr) (spare : List Ptr)
    (optarg : Option Ptr) :
    ∃ o, GetOpt S.length (mkArgv S term spare) (some n) optarg = .ok o ∧
      (o.optarg ≠ optarg → optarg ≠ none ∧ o.ret = 1) ∧
      (o.ret = 0 ∨ o.ret = -1 → o.optarg = optarg) ∧
      (optarg = none → o.optarg = none) ∧
      (optarg ≠ none → o.ret = 1 →
        ∃ i v, FirstAt S n i ∧ S[i + 1]? = some v ∧ o.optarg = some (some v)) ∧
      (optarg = some none → o.ret = 1 → o.optarg ≠ optarg) := by
  rcases GetOpt_cases S n term spare optarg with
    ⟨hn, hcall⟩ | ⟨pre, post, hS, hn, hopt, hcall⟩ | ⟨pre, old, hS, hn, hopt, hcall⟩ |
    ⟨pre, v, post, old, hS, hn, hopt, hcall⟩
  · refine ⟨_, hcall, fun h => absurd rfl h, fun _ => rfl, fun h => h, ?_, ?_⟩
    · intro _ h; exact absurd h (show ¬ ((0 : Int) = 1) by decide)
    · intro _ h; exact absurd h (show ¬ ((0 : Int) = 1) by decide)
  · refine ⟨_, hcall, fun h => absurd hopt.symm h, fun _ => hopt.symm, fun _ => rfl,
      fun h => absurd hopt h, ?_⟩
    intro h; rw [hopt] at h; exact Option.noConfusion h
  · refine ⟨_, hcall, fun h => absurd hopt.symm h, fun _ => hopt.symm, ?_, ?_, ?_⟩
    · intro h; rw [hopt] at h; exact Option.noConfusion h
    · intro _ h; exact absurd h (show ¬ ((-1 : Int) = 1) by decide)
    · intro _ h; exact absurd h (show ¬ ((-1 : Int) = 1) by decide)
  · have hsome : optarg ≠ none := by rw [hopt]; exact Option.some_ne_none old
    have hnext : S[pre.length + 1]? = some v := by
      rw [hS, List.getElem?_append_right (by omega)]
      simp
    refine ⟨_, hcall, fun _ => ⟨hsome, rfl⟩, ?_, fun h => absurd h hsome, ?_, ?_⟩
    · intro h
      rcases h with h | h
      · exact absurd h (show ¬ ((1 : Int) = 0) by decide)
      · exact absurd h (show ¬ ((1 : Int) = -1) by decide)
    · intro _ _
      exact ⟨pre.length, v, by rw [hS]; exact firstAt_of_split pre (v :: post) n hn,
        hnext, rfl⟩
    · intro h _ hc
      rw [h] at hc
      exact Option.noConfusion (Option.some.inj hc)

end Lsvm
